import Mathlib

/-!
Verification development for the media-file organizing tool (organize.py / split.py).

The Python sources are shallowly embedded: every pure string-level routine of the
filename-semantics engine is translated into an executable Lean function working on
`String` / `List Char`, and the filesystem-mutating passes are modelled as pure
functions on an explicit directory-tree type (`FsTree`) or on a flat list of
file entries (`FsEntry`).  All filenames handled by the tool are ASCII, so the
ASCII fragments of Python's `str.lower`, `\w`, `\s` are used throughout.
-/

namespace OrgApp

/-! ## Character classes used by the Python regexes -/

/-- Python regex class `\s` (ASCII part): space, tab, newline, vertical tab,
form feed, carriage return. -/
def isPySpace (c : Char) : Bool :=
  c = ' ' || c = '\t' || c = '\n' || c = '\x0b' || c = '\x0c' || c = '\r'

/-- The character class `[-_\s]`: removed by `re.sub(r'[-_\s]', '', ...)` in
`normalize_filename` and used as token separator by `re.split(r'[-_\s]', ...)`
in `extract_name_code_variant`. -/
def isSepChar (c : Char) : Bool :=
  c = '-' || c = '_' || isPySpace c

/-- Python regex class `\w` (ASCII part): letters, digits and underscore. -/
def isWordChar (c : Char) : Bool :=
  c.isAlphanum || c = '_'

/-- ASCII model of Python `str.lower()` applied character-wise. -/
def lowerChar : Char → Char
  | 'A' => 'a' | 'B' => 'b' | 'C' => 'c' | 'D' => 'd' | 'E' => 'e' | 'F' => 'f'
  | 'G' => 'g' | 'H' => 'h' | 'I' => 'i' | 'J' => 'j' | 'K' => 'k' | 'L' => 'l'
  | 'M' => 'm' | 'N' => 'n' | 'O' => 'o' | 'P' => 'p' | 'Q' => 'q' | 'R' => 'r'
  | 'S' => 's' | 'T' => 't' | 'U' => 'u' | 'V' => 'v' | 'W' => 'w' | 'X' => 'x'
  | 'Y' => 'y' | 'Z' => 'z'
  | c => c

/-- Python `str.strip()`: remove leading and trailing whitespace. -/
def pyStrip (l : List Char) : List Char :=
  ((l.dropWhile isPySpace).reverse.dropWhile isPySpace).reverse

/-! ## os.path.splitext and the `_v<digits>` version marker -/

/-- Model of `os.path.splitext` on a bare filename (no directory separators):
split at the last dot, unless every character before that dot is itself a dot
(so `".foo"` has no extension while `"a.b"` splits as `("a", ".b")`). -/
def splitextL (l : List Char) : List Char × List Char :=
  match l.reverse.findIdx? (· == '.') with
  | none => (l, [])
  | some k =>
      let pos := l.length - 1 - k
      if (l.take pos).any (fun c => c != '.') then (l.take pos, l.drop pos) else (l, [])

/-- Model of `re.search(r'_v\d+$', s)` splitting: returns the part of `s` before a
trailing `_v<digits>` version marker together with the marker itself (empty when
there is no marker). -/
def stripVersionL (l : List Char) : List Char × List Char :=
  let r := l.reverse
  let ds := r.takeWhile Char.isDigit
  if ds.isEmpty then (l, [])
  else
    match r.drop ds.length with
    | 'v' :: '_' :: rest => (rest.reverse, '_' :: 'v' :: ds.reverse)
    | _ => (l, [])

/-! ## Normalizer (organize.py lines 7-46) -/

/-- `normalize_filename`: split off the extension, strip a trailing `_v<digits>`
marker, delete all `[-_\s]` characters, `strip()`, lowercase, and reattach the
lowercased extension. -/
def normalize_filename (filename : String) : String :=
  let se := splitextL filename.data
  let basename := (stripVersionL se.1).1
  let normalized := (pyStrip (basename.filter (fun c => !(isSepChar c)))).map lowerChar
  String.mk (normalized ++ se.2.map lowerChar)

/-- Numeric value of an alphabetic suffix: `A -> 1`, ..., `Z -> 26`
(`ord(alpha_char.upper()) - ord('A') + 1`). -/
def alphaNumericValue (c : Char) : Nat :=
  c.toUpper.toNat - 'A'.toNat + 1

/-- The decimal digit characters. -/
def natDigitChar : Nat → Char
  | 0 => '0' | 1 => '1' | 2 => '2' | 3 => '3' | 4 => '4'
  | 5 => '5' | 6 => '6' | 7 => '7' | 8 => '8' | _ => '9'

/-- Decimal representation of a natural number (Python `str(n)`), with explicit
fuel to keep the recursion structural. -/
def natToCharsAux : Nat → Nat → List Char
  | 0, _ => []
  | fuel + 1, n =>
      if n < 10 then [natDigitChar n]
      else natToCharsAux fuel (n / 10) ++ [natDigitChar (n % 10)]

/-- Decimal representation of a natural number, as the character list Python's
`str(n)` produces. -/
def natToChars (n : Nat) : List Char :=
  natToCharsAux (n + 1) n

/-- `convert_alpha_to_numeric_suffix`: if the stem (with any `_v<digits>` marker
set aside) ends in an alphabetic character, replace that character by its
1-based alphabetic position, then reattach the marker and the extension. -/
def convert_alpha_to_numeric_suffix (filename : String) : String :=
  let se := splitextL filename.data
  let bv := stripVersionL se.1
  match bv.1.getLast? with
  | some c =>
      if c.isAlpha then
        String.mk (bv.1.dropLast ++ natToChars (alphaNumericValue c) ++ bv.2 ++ se.2)
      else
        String.mk (bv.1 ++ bv.2 ++ se.2)
  | none => String.mk (bv.1 ++ bv.2 ++ se.2)

/-- `normalize_filename_with_alpha_numeric`: alpha-to-numeric conversion followed
by standard normalization. -/
def normalize_filename_with_alpha_numeric (filename : String) : String :=
  normalize_filename (convert_alpha_to_numeric_suffix filename)

/-! ## Collision detection in the organizing pass (organize.py lines 91-123, 324-337) -/

/-- The four-way key comparison performed by `find_existing_file_variant` for one
existing file against the incoming file. -/
def file_variant_match (existingFile incomingFile : String) : Bool :=
  let normalizedNew := normalize_filename incomingFile
  let alphaNumericNew := normalize_filename_with_alpha_numeric incomingFile
  let normalizedExisting := normalize_filename existingFile
  let alphaNumericExisting := normalize_filename_with_alpha_numeric existingFile
  normalizedNew == normalizedExisting || alphaNumericNew == alphaNumericExisting ||
    normalizedNew == alphaNumericExisting || alphaNumericNew == normalizedExisting

/-- `find_existing_file_variant`: scan the plain files of the target folder in
listing order and return the first whose keys match the incoming file under any
of the four cross-comparisons. -/
def find_existing_file_variant (listing : List String) (filename : String) : Option String :=
  listing.find? (fun existingFile => file_variant_match existingFile filename)

/-- `handle_existing_file`: the quarantine name given to a superseded file,
`<stem>_replaced_<timestamp><ext>`. -/
def handle_existing_file (filename timestamp : String) : String :=
  let se := splitextL filename.data
  String.mk (se.1 ++ "_replaced_".data ++ timestamp.data ++ se.2)

/-! ## Name/Code/Variant Extractor (organize.py lines 125-288) -/

/-- `is_variant_code`: `re.fullmatch(r'^[A-Za-z0-9]$', word)` — a single
alphanumeric character. -/
def is_variant_code (word : String) : Bool :=
  match word.data with
  | [c] => c.isAlphanum
  | _ => false

/-- Characters kept by `re.sub(r'[^\w\s\.-]', '', basename)`. -/
def cleanKeep (c : Char) : Bool :=
  isWordChar c || isPySpace c || c = '.' || c = '-'

/-- `re.split(r'[-_\s]', l)`: cut the character list at every separator
character (empty pieces included, as in Python). -/
def splitSeps (l : List Char) : List (List Char) :=
  l.foldr
    (fun c acc =>
      if isSepChar c then [] :: acc
      else
        match acc with
        | a :: rest => (c :: a) :: rest
        | [] => [[c]])
    [[]]

/-- Tokenization used by the extractor: split on `[-_\s]` and drop empty pieces
(`parts = [p for p in parts if p]`). -/
def splitParts (l : List Char) : List String :=
  ((splitSeps l).filter (fun p => !p.isEmpty)).map String.mk

/-- The token list the extractor works on: version marker stripped, characters
outside `[\w\s.-]` removed, then split on separators. -/
def extractParts (basename : String) : List String :=
  splitParts (((stripVersionL basename.data).1).filter cleanKeep)

def allAlphaStr (s : String) : Bool :=
  !s.data.isEmpty && s.data.all Char.isAlpha

def hasAlphaStr (s : String) : Bool :=
  s.data.any Char.isAlpha

def hasDigitStr (s : String) : Bool :=
  s.data.any Char.isDigit

def allDigitStr (s : String) : Bool :=
  !s.data.isEmpty && s.data.all Char.isDigit

/-- Does a dotted version pattern `\d+\.\d+` occur starting exactly at this
position? (`\d+` is effectively maximal here: a shorter digit run would end on a
digit, not on the required dot.) -/
def startsDottedVersion (l : List Char) : Bool :=
  let ds := l.takeWhile Char.isDigit
  !ds.isEmpty &&
    (match l.drop ds.length with
     | '.' :: c :: _ => c.isDigit
     | _ => false)

/-- `re.search(r'\d+\.\d+', s)`: a dotted version number occurs somewhere in `s`
(filenames contain no newlines, so the search is position-wise). -/
def hasDottedVersion (s : String) : Bool :=
  s.data.tails.any startsDottedVersion

/-- `re.match(r'^([a-zA-Z]+)(\d+.*)$', s)`: a maximal nonempty alphabetic prefix
followed immediately by a digit; returns (letters, remainder). -/
def brandModelSplit (s : String) : Option (String × String) :=
  let letters := s.data.takeWhile Char.isAlpha
  if letters.isEmpty then none
  else
    match s.data.drop letters.length with
    | c :: _ =>
        if c.isDigit then some (String.mk letters, String.mk (s.data.drop letters.length))
        else none
    | [] => none

/-- `sep.join(parts)`. -/
def joinWith (sep : String) : List String → String
  | [] => ""
  | [x] => x
  | x :: xs => x ++ sep ++ joinWith sep xs

/-- `re.sub(rf'^{re.escape(name_part)}[-_\s]*', '', s, 1)`: if `name_part` is a
literal prefix of `s`, drop it together with the following separator run. -/
def subNamePrefixOnce (namePart s : String) : String :=
  if namePart.data.isPrefixOf s.data then
    String.mk ((s.data.drop namePart.data.length).dropWhile isSepChar)
  else s

/-- `re.sub(rf'[-_\s]*{re.escape(variant)}$', '', s)`: if `s` ends with the
variant, drop it together with the separator run before it. -/
def subVariantSuffix (variant s : String) : String :=
  if variant.data.reverse.isPrefixOf s.data.reverse then
    String.mk (((s.data.reverse.drop variant.data.length).dropWhile isSepChar).reverse)
  else s

/-- Python truthiness of an optional string (`if name:`): present and nonempty. -/
def pyTruthy (o : Option String) : Bool :=
  match o with
  | none => false
  | some s => !s.data.isEmpty

/-- `code.replace('-', ' ')`. -/
def replaceDashWithSpace (s : String) : String :=
  String.mk (s.data.map (fun c => if c = '-' then ' ' else c))

/-- The variant pop (organize.py lines 182-186): if more than one token remains
and the last token is a single alphanumeric character, pop it as the variant. -/
def popVariant (parts : List String) : Option String × List String :=
  if parts.length > 1 && is_variant_code (parts.getLastD "") then
    (some (parts.getLastD ""), parts.dropLast)
  else (none, parts)

/-- The two post-checks on the assembled (name, code) pair
(organize.py lines 279-285): a digit-free, hyphen-free code with no name becomes
the name; if both are still falsy the first token becomes the name. -/
def finalizeNameCode (parts : List String) (name code : Option String) :
    Option String × Option String :=
  let nc :=
    if !(pyTruthy name) && pyTruthy code then
      match code with
      | some c =>
          if !(hasDigitStr c) && !(c.data.contains '-') then
            (some (replaceDashWithSpace c), none)
          else (name, code)
      | none => (name, code)
    else (name, code)
  if !(pyTruthy nc.1) && !(pyTruthy nc.2) then
    ((if !parts.isEmpty then some (joinWith " " (parts.take 1)) else none), nc.2)
  else nc

/-- The branch cascade after the special three-token case
(organize.py lines 177-288).  `basename` is the stem with the version marker
already stripped; `parts0` is the nonempty token list. -/
def extractMain (basename : String) (parts0 : List String) :
    Option String × Option String × Option String :=
  let vp := popVariant parts0
  let variant := vp.1
  let parts := vp.2
  let techIdx := parts.findIdx? hasDottedVersion
  let npcp : List String × List String :=
    match techIdx with
    | some i => if i == 0 then (parts.take 1, parts.drop 1) else (parts.take i, parts.drop i)
    | none =>
      match parts with
      | [single] =>
          (match brandModelSplit single with
           | some bm => ([bm.1], [bm.2])
           | none => ([single], []))
      | [firstPart, secondPart] =>
          (match brandModelSplit firstPart with
           | some bm => ([bm.1], [bm.2, secondPart])
           | none =>
             if allAlphaStr firstPart && hasDigitStr secondPart then
               ([firstPart], [secondPart])
             else if secondPart.length ≥ 2 then ([firstPart], [secondPart])
             else ([firstPart, secondPart], []))
      | firstPart :: more =>
          if allAlphaStr firstPart then ([firstPart], more)
          else
            let pcs :=
              match (parts.drop 1).findIdx? hasDigitStr with
              | some j => j + 1
              | none => 1
            (parts.take pcs, parts.drop pcs)
      -- unreachable: the extractor is only called with a nonempty token list,
      -- and popping the variant requires more than one token
      | [] => ([], [])
  let nameParts := npcp.1
  let codeParts := npcp.2
  let name : Option String :=
    if !nameParts.isEmpty then some (String.mk (pyStrip (joinWith " " nameParts).data))
    else none
  let code : Option String :=
    match codeParts with
    | [] => none
    | [c] => some c
    | _ =>
        let codePortion := nameParts.foldl (fun acc np => subNamePrefixOnce np acc) basename
        let codePortion :=
          match variant with
          | some v => subVariantSuffix v codePortion
          | none => codePortion
        if codePortion.data.contains '_' && !(codePortion.data.contains '-') then
          some (joinWith "_" codeParts)
        else some (joinWith "-" codeParts)
  let nc := finalizeNameCode parts name code
  (nc.1, nc.2, variant)

/-- `extract_name_code_variant`: parse a filename stem into
(brand name, product code, variant). -/
def extract_name_code_variant (basename0 : String) :
    Option String × Option String × Option String :=
  let basename := String.mk (stripVersionL basename0.data).1
  let parts := extractParts basename0
  match parts with
  | [] => (none, none, none)
  | p0 :: rest =>
      if (match rest with
          | p1 :: p2 :: _ =>
              allAlphaStr p0 && (hasAlphaStr p1 && hasDigitStr p1) && allDigitStr p2
          | _ => false) then
        (some p0, some (joinWith "-" rest), none)
      else extractMain basename (p0 :: rest)

/-! ## Code Consolidator (organize.py lines 382-418) -/

/-- Python string comparison (code-point lexicographic, a prefix sorts first). -/
def pyLexLe : List Char → List Char → Bool
  | [], _ => true
  | _ :: _, [] => false
  | a :: as, b :: bs => if a = b then pyLexLe as bs else decide (a < b)

/-- The sort key `lambda x: (-len(x), x)` of `consolidate_product_codes`:
`a` comes before `b` when `a` is longer, or equally long and lexicographically
no later. -/
def moreSpecific (a b : String) : Prop :=
  b.length < a.length ∨ (a.length = b.length ∧ pyLexLe a.data b.data = true)

instance : DecidableRel moreSpecific := fun _ _ => instDecidableOr

/-- `re.match(r'^([A-Za-z0-9]+)', code)`: the leading alphanumeric run, when the
code starts with an alphanumeric character. -/
def codeBase (code : String) : Option String :=
  let run := code.data.takeWhile Char.isAlphanum
  if run.isEmpty then none else some (String.mk run)

/-- Append a code to its base's group, preserving first-seen order of bases
(the iteration order of the Python `defaultdict`). -/
def insertGroup (m : List (String × List String)) (b c : String) :
    List (String × List String) :=
  match m with
  | [] => [(b, [c])]
  | kv :: rest => if kv.1 == b then (kv.1, kv.2 ++ [c]) :: rest else kv :: insertGroup rest b c

/-- The `code_groups` dictionary: codes grouped by leading alphanumeric run;
codes with no such run are skipped. -/
def codeGroups (codes : List String) : List (String × List String) :=
  codes.foldl
    (fun m c =>
      match codeBase c with
      | some b => insertGroup m b c
      | none => m)
    []

/-- Lookup of a base's group in the association list (the `defaultdict` read). -/
def groupFor : List (String × List String) → String → List String
  | [], _ => []
  | kv :: rest, b => if kv.1 == b then kv.2 else groupFor rest b

/-- The per-group body of the consolidation loop: a singleton group maps to
itself; a larger group maps every member to the head of the group sorted by
`(-len(x), x)` — Python's `sorted` is stable, which the stable `insertionSort`
mirrors. -/
def consolidateGroup (cs : List String) : List (String × String) :=
  match cs with
  | [c] => [(c, c)]
  | _ =>
      let sortedCodes := cs.insertionSort moreSpecific
      let mostSpecific := sortedCodes.headD ""
      cs.map (fun c => (c, mostSpecific))

/-- `consolidate_product_codes` (the Python set is modelled as the list of codes
in iteration order; the resulting mapping is order-independent). -/
def consolidate_product_codes (codes : List String) : List (String × String) :=
  (codeGroups codes).foldl (fun acc bg => acc ++ consolidateGroup bg.2) []

/-! ## Producing-side conflict resolution (split.py lines 49-126) -/

/-- `get_versioned_filename`: strip any existing `_v<digits>` marker from the
stem and attach `_v<version>`. -/
def get_versioned_filename (filename : String) (version : Nat) : String :=
  let se := splitextL filename.data
  let stem := (stripVersionL se.1).1
  String.mk (stem ++ "_v".data ++ natToChars version ++ se.2)

/-- The glob pattern `f"{base_name}*{extension}"` of `resolve_conflict` applied
to a file name: the name starts with the literal `base_name`, ends with the
literal `extension`, and is long enough for the two not to overlap. -/
def globPrefixMatch (base ext : List Char) (name : String) : Bool :=
  base.isPrefixOf name.data && ext.reverse.isPrefixOf name.data.reverse &&
    base.length + ext.length ≤ name.data.length

/-- The sort key of `resolve_conflict`: ascending modification time
(`conflicting_files.sort(key=lambda x: x[0])`). -/
def byTimestamp (a b : String × Nat) : Prop :=
  a.2 ≤ b.2

instance : DecidableRel byTimestamp := fun a b => Nat.decLe a.2 b.2

instance : IsTotal (String × Nat) byTimestamp :=
  ⟨fun a b => Nat.le_total a.2 b.2⟩

instance : IsTrans (String × Nat) byTimestamp :=
  ⟨fun _ _ _ hab hbc => Nat.le_trans hab hbc⟩

/-- `resolve_conflict`: files are `(name, modification time)` pairs.
`dirListing` is the listing of the destination directory (the moving source
lives outside it, so the `f != source_path` test always passes).  The collected
files are those matching the prefix glob, plus the source; they are sorted by
modification time (Python's stable `sort(key=lambda x: x[0])`, mirrored by the
stable `insertionSort`) and numbered from 1.  Returns each collected file with
its assigned version number. -/
def resolve_conflict (dirListing : List (String × Nat)) (sourceFile : String × Nat)
    (destFile : String) : List ((String × Nat) × Nat) :=
  let se := splitextL destFile.data
  let baseName := (stripVersionL se.1).1
  let conflictingFiles := dirListing.filter (fun f => globPrefixMatch baseName se.2 f.1)
  let allFiles := conflictingFiles ++ [sourceFile]
  let sortedFiles := allFiles.insertionSort byTimestamp
  sortedFiles.zip (List.range' 1 sortedFiles.length)

/-- The renames performed by the loop of `resolve_conflict`: each collected file
is moved to the versioned name derived from its own stem. -/
def resolve_conflict_renames (dirListing : List (String × Nat)) (sourceFile : String × Nat)
    (destFile : String) : List ((String × Nat) × String) :=
  (resolve_conflict dirListing sourceFile destFile).map
    (fun p => (p.1, get_versioned_filename p.1.1 p.2))

/-! ## Directory-tree model for the pruning passes

`clean_up_empty_product_folders` (organize.py lines 562-586) walks bottom-up and,
for every yielded directory, checks each child that is not named "Old Images":
the child is `rmtree`d when its whole subtree holds no file and every directory
inside it is named "Old Images".  Since children are processed (bottom-up)
before their parent and each check re-reads the current state, the pass is the
bottom-up recursion below.  The walk's root itself is never a removal candidate.
-/

inductive FsTree where
  | node (name : String) (files : List String) (subdirs : List FsTree)

def FsTree.name : FsTree → String
  | .node n _ _ => n

def FsTree.files : FsTree → List String
  | .node _ fs _ => fs

def FsTree.subdirs : FsTree → List FsTree
  | .node _ _ ds => ds

/-- `os.listdir` finds nothing at all in the directory. -/
def isEmptyDir (t : FsTree) : Bool :=
  t.files.isEmpty && t.subdirs.isEmpty

mutual
/-- The emptiness test of `clean_up_empty_product_folders` (lines 576-580): the
inner `os.walk` finds no file anywhere and no directory not named
"Old Images". -/
def recEmpty : FsTree → Bool
  | .node _ fs ds => fs.isEmpty && recEmptyList ds
def recEmptyList : List FsTree → Bool
  | [] => true
  | c :: cs => (c.name == "Old Images" && recEmpty c) && recEmptyList cs
end

/-- The filter applied to each directory's children: a child named "Old Images"
is skipped (kept), any other child is removed exactly when `recEmpty`. -/
def keepChild (c : FsTree) : Bool :=
  c.name == "Old Images" || !(recEmpty c)

mutual
/-- `clean_up_empty_product_folders` as a bottom-up tree transformation. -/
def clean_up_empty_product_folders : FsTree → FsTree
  | .node n fs ds => .node n fs ((cleanupList ds).filter keepChild)
def cleanupList : List FsTree → List FsTree
  | [] => []
  | t :: ts => clean_up_empty_product_folders t :: cleanupList ts
end

/-- The three folder names that `remove_empty_dirs_aggressive` (split.py lines
159-230) never removes when they are direct children of the start path. -/
def keptFolderNames : List String :=
  ["Needs Labeling", "__WEBP To be move to the right folders", "gslisting"]

mutual
/-- One deepest-first pass of `remove_empty_dirs_aggressive` below the kept
level: since directories are processed deepest first and each
`is_directory_truly_empty` check reads the current state, the passes reach
their fixed point already in this single bottom-up recursion (later passes
remove nothing, matching the pass-counting loop's early exit). -/
def aggressiveClean : FsTree → FsTree
  | .node n fs ds => .node n fs ((aggressiveCleanList ds).filter (fun c => !(isEmptyDir c)))
def aggressiveCleanList : List FsTree → List FsTree
  | [] => []
  | t :: ts => aggressiveClean t :: aggressiveCleanList ts
end

/-- `remove_empty_dirs_aggressive`: the start path is never removed, and its
direct children named in `kept_folders` are kept even when empty. -/
def remove_empty_dirs_aggressive (root : FsTree) : FsTree :=
  .node root.name root.files
    ((aggressiveCleanList root.subdirs).filter
      (fun c => keptFolderNames.contains c.name || !(isEmptyDir c)))

/-- `organize_webp_files` (organize.py lines 715-738) on the directory model: a
missing folder reports failure; otherwise the files are organized (not modelled
here — the claim under study concerns a tree whose moves are already done), the
cleanup pass runs, and the function returns `True` unconditionally. -/
def organize_webp_files (webpFolder : Option FsTree) : Option FsTree × Bool :=
  match webpFolder with
  | none => (none, false)
  | some t => (some (clean_up_empty_product_folders t), true)

/-! ### Paths in a tree -/

mutual
/-- Every file in the tree, as a path (directory names, then the file name),
relative to and excluding the root. -/
def filePaths : FsTree → List (List String)
  | .node _ fs ds => fs.map (fun f => [f]) ++ filePathsList ds
def filePathsList : List FsTree → List (List String)
  | [] => []
  | c :: cs => (filePaths c).map (fun p => c.name :: p) ++ filePathsList cs
end

mutual
/-- Every directory strictly below the root, as a path of names. -/
def dirPaths : FsTree → List (List String)
  | .node _ _ ds => dirPathsList ds
def dirPathsList : List FsTree → List (List String)
  | [] => []
  | c :: cs => [c.name] :: ((dirPaths c).map (fun p => c.name :: p) ++ dirPathsList cs)
end

mutual
/-- Every directory strictly below the root that is not named "Old Images" and
is not inside an "Old Images" subtree. -/
def properDirsNonOI : FsTree → List FsTree
  | .node _ _ ds => properDirsList ds
def properDirsList : List FsTree → List FsTree
  | [] => []
  | c :: cs =>
      (if c.name == "Old Images" then [] else c :: properDirsNonOI c) ++ properDirsList cs
end

/-! ## Flat state model for the moving phase of `organize_webp_folder_only`
(organize.py lines 588-694)

A filesystem state is a list of file entries (directory path, file name).  One
step processes one incoming filename of a product-code group: locate the file
by name (the repeated `os.walk` — first match), run the duplicate-variant scan
over the destination directory's listing, quarantine what it finds (or a file
occupying the literal destination), then move the file.  The computation of the
destination and quarantine directories from brand/product-code/category is kept
abstract in `MoveContext`: the claims under study do not depend on it. -/

structure FsEntry where
  dir : List String
  name : String
deriving DecidableEq, Repr

structure MoveContext where
  destDir : List String
  oldImagesDir : List String
  timestamp : String
deriving DecidableEq, Repr

def organize_step (ctx : MoveContext) (incoming : String) (st : List FsEntry) :
    List FsEntry :=
  match st.find? (fun en => en.name == incoming) with
  | none => st
  | some src =>
      let destListing := st.filter (fun en => en.dir == ctx.destDir)
      let moveNeeded := !(src.dir == ctx.destDir && src.name == incoming)
      match destListing.find? (fun en => file_variant_match en.name incoming) with
      | some existing =>
          let st1 := st.map (fun en =>
            if en == existing then
              { dir := ctx.oldImagesDir, name := handle_existing_file existing.name ctx.timestamp }
            else en)
          if moveNeeded then
            st1.map (fun en => if en == src then { dir := ctx.destDir, name := incoming } else en)
          else st1
      | none =>
          if st.any (fun en => en.dir == ctx.destDir && en.name == incoming) then
            let st1 := st.map (fun en =>
              if en.dir == ctx.destDir && en.name == incoming then
                { dir := ctx.oldImagesDir, name := handle_existing_file en.name ctx.timestamp }
              else en)
            if moveNeeded then
              st1.map (fun en => if en == src then { dir := ctx.destDir, name := incoming } else en)
            else st1
          else
            if moveNeeded then
              st.map (fun en => if en == src then { dir := ctx.destDir, name := incoming } else en)
            else st

/-- The whole moving phase: one step per (context, incoming filename) job. -/
def organize_run (jobs : List (MoveContext × String)) (st : List FsEntry) : List FsEntry :=
  jobs.foldl (fun s j => organize_step j.1 j.2 s) st

/-- The first pass of `organize_webp_folder_only` (lines 595-606): filenames
that contain a dot and whose stem yields a truthy brand name are collected for
processing; all others are ignored. -/
def processedNames (files : List String) : List String :=
  files.filter (fun filename =>
    filename.data.contains '.' &&
      pyTruthy (extract_name_code_variant (String.mk (splitextL filename.data).1)).1)

/-! ## Claim-side definitions (spec wording, for comparison with the source) -/

/-- Claim C5's trigger condition, modelled from the claim's words: the stem
(after setting aside a trailing `_v<digits>` marker) ends in a single alphabetic
character preceded by a hyphen, underscore or space separator. -/
def stemEndsSepAlpha (filename : String) : Bool :=
  match ((stripVersionL (splitextL filename.data).1).1).reverse with
  | c :: d :: _ => c.isAlpha && isSepChar d
  | _ => false

/-- The condition the code actually tests: the stem (after setting aside a
trailing `_v<digits>` marker) ends in an alphabetic character, whatever
precedes it. -/
def stemEndsAlpha (filename : String) : Bool :=
  match ((stripVersionL (splitextL filename.data).1).1).getLast? with
  | some c => c.isAlpha
  | none => false

/-- Modelled from the amended claim C5: replace a trailing alphabetic character
of the version-marker-stripped stem — regardless of what precedes it — by its
1-based alphabetic position, reattaching the marker and the extension; leave
any other filename unchanged. -/
def trailingAlphaToNumeric (filename : String) : String :=
  let se := splitextL filename.data
  let bv := stripVersionL se.1
  match bv.1.getLast? with
  | some c =>
      if c.isAlpha then
        String.mk (bv.1.dropLast ++ natToChars (alphaNumericValue c) ++ bv.2 ++ se.2)
      else filename
  | none => filename

/-! ## Helper lemmas -/

theorem String.mk_data (s : String) : String.mk s.data = s := rfl

theorem splitextL_append (l : List Char) : (splitextL l).1 ++ (splitextL l).2 = l := by
  unfold splitextL
  split
  · simp
  · dsimp only
    split
    · exact List.take_append_drop _ l
    · simp

theorem stripVersionL_append (l : List Char) :
    (stripVersionL l).1 ++ (stripVersionL l).2 = l := by
  unfold stripVersionL
  dsimp only
  split
  · simp
  · split
    · next rest heq =>
        dsimp only
        have h1 : l.reverse.take (l.reverse.takeWhile Char.isDigit).length =
            l.reverse.takeWhile Char.isDigit :=
          ((List.prefix_iff_eq_take).mp (List.takeWhile_prefix _)).symm
        have h2 : l.reverse = l.reverse.takeWhile Char.isDigit ++ ('v' :: '_' :: rest) := by
          conv_lhs => rw [← List.take_append_drop (l.reverse.takeWhile Char.isDigit).length
            l.reverse]
          rw [h1, heq]
        have h3 : l = rest.reverse ++ '_' :: 'v' :: (l.reverse.takeWhile Char.isDigit).reverse := by
          conv_lhs => rw [← List.reverse_reverse l, h2]
          simp
        exact h3.symm
    · simp

theorem pyTruthy_ne_none {o : Option String} (h : pyTruthy o = true) : o ≠ none := by
  cases o with
  | none => simp [pyTruthy] at h
  | some s => simp

theorem popVariant_snd_ne_nil {parts : List String} (h : parts ≠ []) :
    (popVariant parts).2 ≠ [] := by
  unfold popVariant
  split
  · next hc =>
      simp only [Bool.and_eq_true, decide_eq_true_eq] at hc
      have hlen : 1 < parts.length := hc.1
      intro hnil
      have := congrArg List.length hnil
      simp [List.length_dropLast] at this
      omega
  · exact h

theorem popVariant_fst_variant {parts : List String} {v : String}
    (h : (popVariant parts).1 = some v) : is_variant_code v = true := by
  unfold popVariant at h
  split at h
  · next hc =>
      simp only [Bool.and_eq_true] at hc
      simp only [Option.some.injEq] at h
      exact h ▸ hc.2
  · simp at h

theorem is_variant_code_shape {v : String} (h : is_variant_code v = true) :
    v.data.length = 1 ∧ v.data.all Char.isAlphanum = true := by
  unfold is_variant_code at h
  cases hv : v.data with
  | nil => rw [hv] at h; simp at h
  | cons c rest =>
      cases rest with
      | nil => rw [hv] at h; simp_all
      | cons d rest2 => rw [hv] at h; simp at h

theorem finalizeNameCode_not_none {parts : List String} (hp : parts ≠ [])
    (name code : Option String) :
    (finalizeNameCode parts name code).1 ≠ none ∨ (finalizeNameCode parts name code).2 ≠ none := by
  unfold finalizeNameCode
  set nc := if !(pyTruthy name) && pyTruthy code then
      match code with
      | some c =>
          if !(hasDigitStr c) && !(c.data.contains '-') then
            (some (replaceDashWithSpace c), none)
          else (name, code)
      | none => (name, code)
    else (name, code) with hnc
  have hie : parts.isEmpty = false := by
    cases parts with
    | nil => exact absurd rfl hp
    | cons a l => rfl
  by_cases h2 : (!(pyTruthy nc.1) && !(pyTruthy nc.2)) = true
  · rw [if_pos h2]
    left
    simp [hie]
  · rw [if_neg h2]
    by_cases ha : pyTruthy nc.1 = true
    · exact Or.inl (pyTruthy_ne_none ha)
    · by_cases hb : pyTruthy nc.2 = true
      · exact Or.inr (pyTruthy_ne_none hb)
      · refine absurd ?_ h2
        simp only [Bool.not_eq_true] at ha hb
        simp [ha, hb]

theorem extractMain_parts_result (basename : String) (parts0 : List String) :
    ∃ nc : Option String × Option String,
      extractMain basename parts0 = (nc.1, nc.2, (popVariant parts0).1) ∧
      (∃ name code, nc = finalizeNameCode (popVariant parts0).2 name code) := by
  refine ⟨_, rfl, ?_⟩
  exact ⟨_, _, rfl⟩

theorem convert_eq_trailingAlphaToNumeric (name : String) :
    convert_alpha_to_numeric_suffix name = trailingAlphaToNumeric name := by
  unfold convert_alpha_to_numeric_suffix trailingAlphaToNumeric
  dsimp only
  have hfull : (stripVersionL (splitextL name.data).1).1 ++
      (stripVersionL (splitextL name.data).1).2 ++ (splitextL name.data).2 = name.data := by
    rw [stripVersionL_append, splitextL_append]
  split
  · split
    · rfl
    · rw [hfull]
  · rw [hfull]

/-- C5 (counterexample): `"Widget.jpg"` has no separator before its final stem
letter, so by the claim the two normalizations should agree; but the code
converts any trailing letter, giving `"widge20.jpg"` versus `"widget.jpg"`. -/
theorem alpha_numeric_sep_counterexample :
    normalize_filename_with_alpha_numeric "Widget.jpg" = "widge20.jpg" ∧
    normalize_filename "Widget.jpg" = "widget.jpg" ∧
    stemEndsSepAlpha "Widget.jpg" = false := by
  decide

/-- C5 (amended): `normalize_filename_with_alpha_numeric` equals
`normalize_filename` after replacing a trailing alphabetic stem character —
whether or not a separator precedes it — by its 1-based alphabetic position;
when the version-stripped stem does not end in a letter at all, it coincides
with plain `normalize_filename`. -/
theorem alpha_numeric_normalization (name : String) :
    normalize_filename_with_alpha_numeric name =
      normalize_filename (trailingAlphaToNumeric name) ∧
    (stemEndsAlpha name = false →
      normalize_filename_with_alpha_numeric name = normalize_filename name) := by
  constructor
  · unfold normalize_filename_with_alpha_numeric
    rw [convert_eq_trailingAlphaToNumeric]
  · intro h
    unfold normalize_filename_with_alpha_numeric
    rw [convert_eq_trailingAlphaToNumeric]
    have htriv : trailingAlphaToNumeric name = name := by
      unfold trailingAlphaToNumeric
      unfold stemEndsAlpha at h
      dsimp only at *
      cases hg : ((stripVersionL (splitextL name.data).1).1).getLast? with
      | none => simp [hg]
      | some c =>
          rw [hg] at h
          simp only at h
          simp [hg, h]
    rw [htriv]

/-- C5 witness: `"foo1.jpg"` has a stem ending in a digit, so the second part of
the theorem applies and both entry points agree on it. -/
theorem alpha_numeric_normalization_witness :
    stemEndsAlpha "foo1.jpg" = false ∧
    normalize_filename_with_alpha_numeric "foo1.jpg" = normalize_filename "foo1.jpg" :=
  ⟨by decide, (alpha_numeric_normalization "foo1.jpg").2 (by decide)⟩

/-- C6: when a destination listing holds a file whose normalized keys match the
incoming filename under any of the four cross-comparisons, the scan detects an
existing variant, and the quarantine rename is
`<original-stem>_replaced_<timestamp><ext>`; in particular the keys of
`widget-a.jpg` and `Widget_A.jpg` match. -/
theorem collision_quarantine (listing : List String) (incoming existing ts : String)
    (hmem : existing ∈ listing) (hmatch : file_variant_match existing incoming = true) :
    (find_existing_file_variant listing incoming).isSome = true ∧
    handle_existing_file existing ts =
      String.mk (splitextL existing.data).1 ++ "_replaced_" ++ ts ++
        String.mk (splitextL existing.data).2 ∧
    file_variant_match "widget-a.jpg" "Widget_A.jpg" = true := by
  refine ⟨?_, rfl, by decide⟩
  cases hf : find_existing_file_variant listing incoming with
  | some v => rfl
  | none =>
      exfalso
      unfold find_existing_file_variant at hf
      exact (List.find?_eq_none.mp hf existing hmem) hmatch

/-- C6 witness: the destination already holds `widget-a.jpg` and the incoming
file is `Widget_A.jpg`; the variant is found and the quarantine name is built
from the stem, the timestamp and the extension. -/
theorem collision_quarantine_witness :
    (find_existing_file_variant ["widget-a.jpg"] "Widget_A.jpg").isSome = true ∧
    handle_existing_file "widget-a.jpg" "20240101_000000" =
      String.mk (splitextL "widget-a.jpg".data).1 ++ "_replaced_" ++ "20240101_000000" ++
        String.mk (splitextL "widget-a.jpg".data).2 ∧
    file_variant_match "widget-a.jpg" "Widget_A.jpg" = true :=
  collision_quarantine ["widget-a.jpg"] "Widget_A.jpg" "widget-a.jpg" "20240101_000000"
    (by decide) (by decide)

theorem FsTree.inductionOn {P : FsTree → Prop}
    (h : ∀ n fs ds, (∀ c ∈ ds, P c) → P (FsTree.node n fs ds)) : ∀ t, P t
  | FsTree.node n fs ds => h n fs ds (fun c hc => FsTree.inductionOn h c)
decreasing_by
  have := List.sizeOf_lt_of_mem hc
  simp only [FsTree.node.sizeOf_spec]
  omega

theorem cleanupList_eq_map (ds : List FsTree) :
    cleanupList ds = ds.map clean_up_empty_product_folders := by
  induction ds with
  | nil => rfl
  | cons c cs ih => simp [cleanupList, ih]

theorem aggressiveCleanList_eq_map (ds : List FsTree) :
    aggressiveCleanList ds = ds.map aggressiveClean := by
  induction ds with
  | nil => rfl
  | cons c cs ih => simp [aggressiveCleanList, ih]

theorem recEmptyList_mem {ds : List FsTree} (h : recEmptyList ds = true) :
    ∀ c ∈ ds, c.name = "Old Images" ∧ recEmpty c = true := by
  induction ds with
  | nil => simp
  | cons c cs ih =>
      simp only [recEmptyList, Bool.and_eq_true, beq_iff_eq] at h
      intro x hx
      rcases List.mem_cons.mp hx with rfl | hx
      · exact ⟨h.1.1, h.1.2⟩
      · exact ih h.2 x hx

theorem recEmpty_of_isEmptyDir {t : FsTree} (h : isEmptyDir t = true) :
    recEmpty t = true := by
  cases t with
  | node n fs ds =>
      simp only [isEmptyDir, FsTree.files, FsTree.subdirs, Bool.and_eq_true,
        List.isEmpty_eq_true] at h
      rw [h.1, h.2]
      rfl

theorem mem_properDirsList {l : List FsTree} {d : FsTree} :
    d ∈ properDirsList l ↔
      ∃ c ∈ l, c.name ≠ "Old Images" ∧ (d = c ∨ d ∈ properDirsNonOI c) := by
  induction l with
  | nil => simp [properDirsList]
  | cons c cs ih =>
      simp only [properDirsList, List.mem_append, ih, List.mem_cons]
      by_cases hn : c.name = "Old Images"
      · simp only [hn, beq_self_eq_true, if_pos, List.not_mem_nil, false_or]
        constructor
        · rintro ⟨x, hx, hxn, hdx⟩
          exact ⟨x, Or.inr hx, hxn, hdx⟩
        · rintro ⟨x, rfl | hx, hxn, hdx⟩
          · exact absurd hn hxn
          · exact ⟨x, hx, hxn, hdx⟩
      · rw [if_neg (by simpa using hn)]
        constructor
        · rintro (hd | ⟨x, hx, hxn, hdx⟩)
          · rcases List.mem_cons.mp hd with heq | hd
            · exact ⟨c, Or.inl rfl, hn, Or.inl heq⟩
            · exact ⟨c, Or.inl rfl, hn, Or.inr hd⟩
          · exact ⟨x, Or.inr hx, hxn, hdx⟩
        · rintro ⟨x, rfl | hx, hxn, hdx⟩
          · rcases hdx with rfl | hdx
            · exact Or.inl (List.mem_cons_self _ _)
            · exact Or.inl (List.mem_cons_of_mem _ hdx)
          · exact Or.inr ⟨x, hx, hxn, hdx⟩

theorem cleanup_no_empty :
    ∀ t, ∀ d ∈ properDirsNonOI (clean_up_empty_product_folders t), isEmptyDir d = false := by
  intro t
  induction t using FsTree.inductionOn with
  | h n fs ds ih =>
      intro d hd
      simp only [clean_up_empty_product_folders, properDirsNonOI] at hd
      rw [mem_properDirsList] at hd
      obtain ⟨c, hc, hcn, hdc⟩ := hd
      rw [List.mem_filter] at hc
      obtain ⟨hcl, hkeep⟩ := hc
      rw [cleanupList_eq_map, List.mem_map] at hcl
      obtain ⟨c0, hc0, rfl⟩ := hcl
      rcases hdc with rfl | hdd
      · unfold keepChild at hkeep
        rw [Bool.or_eq_true] at hkeep
        rcases hkeep with hkeep | hkeep
        · exact absurd (by simpa using hkeep) hcn
        · cases hee : isEmptyDir (clean_up_empty_product_folders c0) with
          | false => rfl
          | true =>
              exfalso
              rw [Bool.not_eq_true'] at hkeep
              rw [recEmpty_of_isEmptyDir hee] at hkeep
              exact absurd hkeep (by decide)
      · exact ih c0 hc0 d hdd

/-- C7 (counterexample): on a staging tree holding a single empty subdirectory,
the cleanup removes the subdirectory, the root itself is left an empty
directory, and `organize_webp_files` still returns success — it has no
verification step and never reports a surviving path. -/
theorem materializer_no_failure_report :
    organize_webp_files (some (FsTree.node "W" [] [FsTree.node "A" [] []])) =
      (some (FsTree.node "W" [] []), true) ∧
    isEmptyDir (FsTree.node "W" [] []) = true :=
  ⟨rfl, rfl⟩

/-- C7 (amended): after the materializer's single cleanup pass, no directory
strictly below the staging root that is outside any "Old Images" subtree is
empty — the pass is already at its fixed point — and the run returns success
unconditionally (it has no surviving-path report; that reporting belongs to the
splitting stage). -/
theorem materializer_cleanup (t : FsTree) :
    organize_webp_files (some t) = (some (clean_up_empty_product_folders t), true) ∧
    ∀ d ∈ properDirsNonOI (clean_up_empty_product_folders t), isEmptyDir d = false :=
  ⟨rfl, cleanup_no_empty t⟩

/-- C7 witness: a tree with one nonempty directory; after cleanup that directory
is (still) there and is not empty. -/
theorem materializer_cleanup_witness :
    isEmptyDir (FsTree.node "B" ["f.jpg"] []) = false :=
  (materializer_cleanup (FsTree.node "W" [] [FsTree.node "B" ["f.jpg"] []])).2
    (FsTree.node "B" ["f.jpg"] []) (List.Mem.head _)

theorem cleanup_name (t : FsTree) :
    (clean_up_empty_product_folders t).name = t.name := by
  cases t; rfl

theorem aggressiveClean_name (t : FsTree) : (aggressiveClean t).name = t.name := by
  cases t; rfl

theorem mem_filePathsList {l : List FsTree} {p : List String} :
    p ∈ filePathsList l ↔ ∃ c ∈ l, ∃ q ∈ filePaths c, p = c.name :: q := by
  induction l with
  | nil => simp [filePathsList]
  | cons c cs ih =>
      simp only [filePathsList, List.mem_append, List.mem_map, ih, List.mem_cons]
      constructor
      · rintro (⟨q, hq, rfl⟩ | ⟨x, hx, q, hq, rfl⟩)
        · exact ⟨c, Or.inl rfl, q, hq, rfl⟩
        · exact ⟨x, Or.inr hx, q, hq, rfl⟩
      · rintro ⟨x, hx, q, hq, rfl⟩
        rcases hx with heq | hx
        · subst heq
          exact Or.inl ⟨q, hq, rfl⟩
        · exact Or.inr ⟨x, hx, q, hq, rfl⟩

theorem mem_dirPathsList {l : List FsTree} {r : List String} :
    r ∈ dirPathsList l ↔
      ∃ c ∈ l, r = [c.name] ∨ ∃ r2 ∈ dirPaths c, r = c.name :: r2 := by
  induction l with
  | nil => simp [dirPathsList]
  | cons c cs ih =>
      simp only [dirPathsList, List.mem_cons, List.mem_append, List.mem_map, ih]
      constructor
      · rintro (rfl | (⟨r2, hr2, rfl⟩ | ⟨x, hx, hr⟩))
        · exact ⟨c, Or.inl rfl, Or.inl rfl⟩
        · exact ⟨c, Or.inl rfl, Or.inr ⟨r2, hr2, rfl⟩⟩
        · exact ⟨x, Or.inr hx, hr⟩
      · rintro ⟨x, hx, hr⟩
        rcases hx with heq | hx
        · subst heq
          rcases hr with rfl | ⟨r2, hr2, rfl⟩
          · exact Or.inl rfl
          · exact Or.inr (Or.inl ⟨r2, hr2, rfl⟩)
        · exact Or.inr (Or.inr ⟨x, hx, hr⟩)

theorem filePathsList_nil {l : List FsTree} (h : ∀ c ∈ l, filePaths c = []) :
    filePathsList l = [] := by
  induction l with
  | nil => rfl
  | cons c cs ih =>
      simp only [filePathsList]
      rw [h c (List.mem_cons_self _ _), ih (fun x hx => h x (List.mem_cons_of_mem _ hx))]
      rfl

theorem filePaths_nil_of_recEmpty :
    ∀ t, recEmpty t = true → filePaths t = [] := by
  intro t
  induction t using FsTree.inductionOn with
  | h n fs ds ih =>
      intro hre
      simp only [recEmpty, Bool.and_eq_true, List.isEmpty_eq_true] at hre
      have hc := recEmptyList_mem hre.2
      simp only [filePaths, hre.1, List.map_nil, List.nil_append]
      exact filePathsList_nil (fun c hcm => ih c hcm (hc c hcm).2)

theorem filePaths_nil_of_isEmptyDir {t : FsTree} (h : isEmptyDir t = true) :
    filePaths t = [] := by
  cases t with
  | node n fs ds =>
      simp only [isEmptyDir, FsTree.files, FsTree.subdirs, Bool.and_eq_true,
        List.isEmpty_eq_true] at h
      rw [show filePaths (FsTree.node n fs ds) = fs.map (fun f => [f]) ++ filePathsList ds
        from rfl, h.1, h.2]
      rfl

theorem filePaths_ne_nil : ∀ t, ∀ p ∈ filePaths t, p ≠ [] := by
  intro t
  induction t using FsTree.inductionOn with
  | h n fs ds ih =>
      intro p hp
      simp only [filePaths, List.mem_append, List.mem_map] at hp
      rcases hp with ⟨f, _, rfl⟩ | hp
      · simp
      · obtain ⟨c, _, q, _, rfl⟩ := mem_filePathsList.mp hp
        simp

theorem cleanup_preserves_files :
    ∀ t, ∀ p ∈ filePaths t, p ∈ filePaths (clean_up_empty_product_folders t) := by
  intro t
  induction t using FsTree.inductionOn with
  | h n fs ds ih =>
      intro p hp
      simp only [filePaths, List.mem_append, List.mem_map] at hp
      simp only [clean_up_empty_product_folders, filePaths, List.mem_append, List.mem_map]
      rcases hp with ⟨f, hf, rfl⟩ | hp
      · exact Or.inl ⟨f, hf, rfl⟩
      · obtain ⟨c, hc, q, hq, rfl⟩ := mem_filePathsList.mp hp
        right
        have hq2 := ih c hc q hq
        have hkeep : keepChild (clean_up_empty_product_folders c) = true := by
          unfold keepChild
          cases hre : recEmpty (clean_up_empty_product_folders c) with
          | false => simp
          | true =>
              exfalso
              have := filePaths_nil_of_recEmpty _ hre
              rw [this] at hq2
              exact List.not_mem_nil _ hq2
        refine mem_filePathsList.mpr ⟨clean_up_empty_product_folders c, ?_, q, hq2, ?_⟩
        · rw [List.mem_filter, cleanupList_eq_map]
          exact ⟨List.mem_map.mpr ⟨c, hc, rfl⟩, hkeep⟩
        · rw [cleanup_name]

theorem aggressiveClean_preserves_files :
    ∀ t, ∀ p ∈ filePaths t, p ∈ filePaths (aggressiveClean t) := by
  intro t
  induction t using FsTree.inductionOn with
  | h n fs ds ih =>
      intro p hp
      simp only [filePaths, List.mem_append, List.mem_map] at hp
      simp only [aggressiveClean, filePaths, List.mem_append, List.mem_map]
      rcases hp with ⟨f, hf, rfl⟩ | hp
      · exact Or.inl ⟨f, hf, rfl⟩
      · obtain ⟨c, hc, q, hq, rfl⟩ := mem_filePathsList.mp hp
        right
        have hq2 := ih c hc q hq
        have hkeep : (!(isEmptyDir (aggressiveClean c))) = true := by
          cases hie : isEmptyDir (aggressiveClean c) with
          | false => rfl
          | true =>
              exfalso
              have := filePaths_nil_of_isEmptyDir hie
              rw [this] at hq2
              exact List.not_mem_nil _ hq2
        refine mem_filePathsList.mpr ⟨aggressiveClean c, ?_, q, hq2, ?_⟩
        · rw [List.mem_filter, aggressiveCleanList_eq_map]
          exact ⟨List.mem_map.mpr ⟨c, hc, rfl⟩, hkeep⟩
        · rw [aggressiveClean_name]

theorem remove_aggressive_preserves_files (t : FsTree) :
    ∀ p ∈ filePaths t, p ∈ filePaths (remove_empty_dirs_aggressive t) := by
  intro p hp
  cases t with
  | node n fs ds =>
      simp only [filePaths, List.mem_append, List.mem_map] at hp
      simp only [remove_empty_dirs_aggressive, FsTree.name, FsTree.files, FsTree.subdirs,
        filePaths, List.mem_append, List.mem_map]
      rcases hp with ⟨f, hf, rfl⟩ | hp
      · exact Or.inl ⟨f, hf, rfl⟩
      · obtain ⟨c, hc, q, hq, rfl⟩ := mem_filePathsList.mp hp
        right
        have hq2 := aggressiveClean_preserves_files c q hq
        have hkeep : (keptFolderNames.contains (aggressiveClean c).name ||
            !(isEmptyDir (aggressiveClean c))) = true := by
          cases hie : isEmptyDir (aggressiveClean c) with
          | false => simp
          | true =>
              exfalso
              have := filePaths_nil_of_isEmptyDir hie
              rw [this] at hq2
              exact List.not_mem_nil _ hq2
        refine mem_filePathsList.mpr ⟨aggressiveClean c, ?_, q, hq2, ?_⟩
        · rw [List.mem_filter, aggressiveCleanList_eq_map]
          exact ⟨List.mem_map.mpr ⟨c, hc, rfl⟩, hkeep⟩
        · rw [aggressiveClean_name]

theorem dir_prefix_of_filePath :
    ∀ t, ∀ p ∈ filePaths t, ∀ q, q ≠ [] → q <+: p.dropLast → q ∈ dirPaths t := by
  intro t
  induction t using FsTree.inductionOn with
  | h n fs ds ih =>
      intro p hp q hq hpre
      simp only [filePaths, List.mem_append, List.mem_map] at hp
      rcases hp with ⟨f, _, rfl⟩ | hp
      · rw [show ([f] : List String).dropLast = [] from rfl] at hpre
        exact absurd (List.prefix_nil.mp hpre) hq
      · obtain ⟨c, hc, p2, hp2, rfl⟩ := mem_filePathsList.mp hp
        have hp2ne : p2 ≠ [] := filePaths_ne_nil c p2 hp2
        rw [List.dropLast_cons_of_ne_nil hp2ne] at hpre
        cases q with
        | nil => exact absurd rfl hq
        | cons y q2 =>
            obtain ⟨heq, hq2⟩ := List.cons_prefix_cons.mp hpre
            subst heq
            show c.name :: q2 ∈ dirPathsList ds
            rcases List.eq_nil_or_concat q2 with rfl | _
            · exact mem_dirPathsList.mpr ⟨c, hc, Or.inl rfl⟩
            · have hq2ne : q2 ≠ [] := by
                rintro rfl
                simp_all
              have := ih c hc p2 hp2 q2 hq2ne hq2
              exact mem_dirPathsList.mpr ⟨c, hc, Or.inr ⟨q2, this, rfl⟩⟩

/-- C8 (counterexample): an "Old Images" directory that holds no file is deleted
by the cleanup pass: its parent contains nothing but the empty quarantine, so
the parent is removed together with the quarantine inside it. -/
theorem old_images_deleted :
    ["P", "Old Images"] ∈
      dirPaths (FsTree.node "W" [] [FsTree.node "P" [] [FsTree.node "Old Images" [] []]]) ∧
    dirPaths (clean_up_empty_product_folders
      (FsTree.node "W" [] [FsTree.node "P" [] [FsTree.node "Old Images" [] []]])) = [] := by
  decide

/-- C8 (amended): neither pruning routine ever deletes a file — in particular no
file stored beneath an "Old Images" directory — and every directory lying on the
path to a surviving file (in particular an "Old Images" directory with at least
one file anywhere beneath it) is still present after either pass.  Only an
"Old Images" directory with no file beneath it can disappear, by deletion of an
ancestor. -/
theorem quarantine_preservation (t : FsTree) :
    (∀ p ∈ filePaths t, p ∈ filePaths (clean_up_empty_product_folders t) ∧
      p ∈ filePaths (remove_empty_dirs_aggressive t)) ∧
    (∀ p ∈ filePaths t, ∀ q, q ≠ [] → q <+: p.dropLast →
      q ∈ dirPaths (clean_up_empty_product_folders t) ∧
      q ∈ dirPaths (remove_empty_dirs_aggressive t)) := by
  constructor
  · intro p hp
    exact ⟨cleanup_preserves_files t p hp, remove_aggressive_preserves_files t p hp⟩
  · intro p hp q hq hpre
    constructor
    · exact dir_prefix_of_filePath _ p (cleanup_preserves_files t p hp) q hq hpre
    · exact dir_prefix_of_filePath _ p (remove_aggressive_preserves_files t p hp) q hq hpre

/-- C8 witness: a quarantine with a file beneath it: the file and the
quarantine's directory path survive both pruning passes. -/
theorem quarantine_preservation_witness :
    (["P", "Old Images", "keep.jpg"] ∈ filePaths (clean_up_empty_product_folders
        (FsTree.node "W" [] [FsTree.node "P" []
          [FsTree.node "Old Images" ["keep.jpg"] []]])) ∧
      ["P", "Old Images", "keep.jpg"] ∈ filePaths (remove_empty_dirs_aggressive
        (FsTree.node "W" [] [FsTree.node "P" []
          [FsTree.node "Old Images" ["keep.jpg"] []]]))) ∧
    (["P", "Old Images"] ∈ dirPaths (clean_up_empty_product_folders
        (FsTree.node "W" [] [FsTree.node "P" []
          [FsTree.node "Old Images" ["keep.jpg"] []]])) ∧
      ["P", "Old Images"] ∈ dirPaths (remove_empty_dirs_aggressive
        (FsTree.node "W" [] [FsTree.node "P" []
          [FsTree.node "Old Images" ["keep.jpg"] []]]))) :=
  ⟨(quarantine_preservation _).1 ["P", "Old Images", "keep.jpg"] (by decide),
   (quarantine_preservation _).2 ["P", "Old Images", "keep.jpg"] (by decide)
     ["P", "Old Images"] (by decide) (by decide)⟩

/-- C2 (counterexample): `"Widget A.jpg"` shares a NormalizedKey with the
incoming `"widget-a.jpg"` (both normalize to `"widgeta.jpg"`), yet the resolver
collects by literal prefix glob, not by NormalizedKey: the existing file is not
collected and receives no `_v<N>` name — only the incoming file is versioned. -/
theorem resolve_conflict_misses_key_sharer :
    normalize_filename "Widget A.jpg" = normalize_filename "widget-a.jpg" ∧
    resolve_conflict [("Widget A.jpg", 1)] ("widget-a.jpg", 2) "widget-a.jpg" =
      [(("widget-a.jpg", 2), 1)] := by
  decide

/-- C2 (amended): the producing-side resolver collects exactly the destination
files whose names match the literal glob `<base>*<ext>` (the incoming file
included), sorts them by modification time ascending, and assigns the versions
`1, 2, ..., N` in that order — so any collected files with strictly increasing
timestamps receive increasing `_v<N>` numbers regardless of their original
order; each collected file is renamed to its own stem with `_v<N>` attached. -/
theorem resolve_conflict_version_chain (dirListing : List (String × Nat))
    (sourceFile : String × Nat) (destFile : String) :
    ((resolve_conflict dirListing sourceFile destFile).map Prod.fst).Perm
      (dirListing.filter
        (fun f => globPrefixMatch ((stripVersionL (splitextL destFile.data).1).1)
          (splitextL destFile.data).2 f.1) ++ [sourceFile]) ∧
    List.Sorted byTimestamp ((resolve_conflict dirListing sourceFile destFile).map Prod.fst) ∧
    (resolve_conflict dirListing sourceFile destFile).map Prod.snd =
      List.range' 1 (resolve_conflict dirListing sourceFile destFile).length ∧
    resolve_conflict_renames dirListing sourceFile destFile =
      (resolve_conflict dirListing sourceFile destFile).map
        (fun p => (p.1, get_versioned_filename p.1.1 p.2)) := by
  have hlen : ∀ (l : List ((String × Nat))),
      (List.range' 1 l.length).length = l.length := by
    intro l
    simp
  have hfst : (resolve_conflict dirListing sourceFile destFile).map Prod.fst =
      ((dirListing.filter
        (fun f => globPrefixMatch ((stripVersionL (splitextL destFile.data).1).1)
          (splitextL destFile.data).2 f.1) ++ [sourceFile]).insertionSort byTimestamp) := by
    unfold resolve_conflict
    dsimp only
    exact List.map_fst_zip _ _ (by simp)
  refine ⟨?_, ?_, ?_, rfl⟩
  · rw [hfst]
    exact List.perm_insertionSort byTimestamp _
  · rw [hfst]
    exact List.sorted_insertionSort byTimestamp _
  · unfold resolve_conflict
    dsimp only
    rw [List.map_snd_zip _ _ (by simp), List.length_zip]
    simp

theorem pyLexLe_refl : ∀ l, pyLexLe l l = true := by
  intro l
  induction l with
  | nil => rfl
  | cons c cs ih => simp [pyLexLe, ih]

theorem moreSpecific_refl (a : String) : moreSpecific a a :=
  Or.inr ⟨rfl, pyLexLe_refl a.data⟩

theorem pyLexLe_total : ∀ a b, pyLexLe a b = true ∨ pyLexLe b a = true := by
  intro a
  induction a with
  | nil => intro b; left; rfl
  | cons x xs ih =>
      intro b
      cases b with
      | nil => right; rfl
      | cons y ys =>
          by_cases hxy : x = y
          · subst hxy
            rcases ih ys with h | h
            · left; simpa [pyLexLe] using h
            · right; simpa [pyLexLe] using h
          · rcases Ne.lt_or_lt hxy with h | h
            · left; simp [pyLexLe, hxy, h]
            · right
              simp [pyLexLe, Ne.symm hxy, h]

theorem pyLexLe_trans :
    ∀ a b c, pyLexLe a b = true → pyLexLe b c = true → pyLexLe a c = true := by
  intro a
  induction a with
  | nil => intro b c _ _; rfl
  | cons x xs ih =>
      intro b c hab hbc
      cases b with
      | nil => simp [pyLexLe] at hab
      | cons y ys =>
          cases c with
          | nil => simp [pyLexLe] at hbc
          | cons z zs =>
              by_cases hxy : x = y
              · subst hxy
                by_cases hyz : x = z
                · subst hyz
                  simp only [pyLexLe, if_pos rfl] at *
                  exact ih ys zs hab hbc
                · simp only [pyLexLe, if_pos rfl] at hab
                  simpa [pyLexLe, hyz] using hbc
              · by_cases hyz : y = z
                · subst hyz
                  simpa [pyLexLe, hxy] using hab
                · simp only [pyLexLe, if_neg hxy, decide_eq_true_eq] at hab
                  simp only [pyLexLe, if_neg hyz, decide_eq_true_eq] at hbc
                  have hxz : x < z := lt_trans hab hbc
                  simp [pyLexLe, ne_of_lt hxz, hxz]

instance : IsTotal String moreSpecific := by
  constructor
  intro a b
  rcases Nat.lt_trichotomy a.length b.length with h | h | h
  · exact Or.inr (Or.inl h)
  · rcases pyLexLe_total a.data b.data with hp | hp
    · exact Or.inl (Or.inr ⟨h, hp⟩)
    · exact Or.inr (Or.inr ⟨h.symm, hp⟩)
  · exact Or.inl (Or.inl h)

instance : IsTrans String moreSpecific := by
  constructor
  intro a b c hab hbc
  rcases hab with hab | ⟨hab1, hab2⟩
  · rcases hbc with hbc | ⟨hbc1, hbc2⟩
    · exact Or.inl (lt_trans hbc hab)
    · exact Or.inl (hbc1 ▸ hab)
  · rcases hbc with hbc | ⟨hbc1, hbc2⟩
    · exact Or.inl (hab1 ▸ hbc)
    · exact Or.inr ⟨hab1.trans hbc1, pyLexLe_trans _ _ _ hab2 hbc2⟩

theorem groupFor_insert_same : ∀ (m : List (String × List String)) (b c : String),
    groupFor (insertGroup m b c) b = groupFor m b ++ [c] := by
  intro m b c
  induction m with
  | nil => simp [insertGroup, groupFor]
  | cons kv rest ih =>
      simp only [insertGroup]
      by_cases h : (kv.1 == b) = true
      · rw [if_pos h]
        simp [groupFor, h]
      · rw [if_neg h]
        simp [groupFor, h, ih]

theorem groupFor_insert_ne : ∀ (m : List (String × List String)) (b c bq : String),
    bq ≠ b → groupFor (insertGroup m b c) bq = groupFor m bq := by
  intro m b c bq hne
  induction m with
  | nil =>
      have hbq : ((b == bq) : Bool) = false := beq_eq_false_iff_ne.mpr (fun hh => hne hh.symm)
      simp [insertGroup, groupFor, hbq]
  | cons kv rest ih =>
      simp only [insertGroup]
      by_cases h : (kv.1 == b) = true
      · rw [if_pos h]
        have hkv : kv.1 = b := by simpa using h
        have hq : ((kv.1 == bq) : Bool) = false := by
          rw [hkv]
          exact beq_eq_false_iff_ne.mpr (fun hh => hne hh.symm)
        simp [groupFor, hq]
      · rw [if_neg h]
        by_cases hq : (kv.1 == bq) = true
        · simp [groupFor, hq]
        · simp [groupFor, hq, ih]

theorem codeGroups_groupFor_aux :
    ∀ (codes : List String) (m : List (String × List String)) (b : String),
      groupFor (codes.foldl
        (fun m c =>
          match codeBase c with
          | some b0 => insertGroup m b0 c
          | none => m) m) b =
      groupFor m b ++ codes.filter (fun c => codeBase c == some b) := by
  intro codes
  induction codes with
  | nil => intro m b; simp
  | cons c cs ih =>
      intro m b
      rw [List.foldl_cons, ih]
      cases hcb : codeBase c with
      | none =>
          have hf : (codeBase c == some b) = false := by rw [hcb]; rfl
          simp [hcb, hf]
      | some b0 =>
          by_cases hb : b0 = b
          · subst hb
            have hf : (codeBase c == some b0) = true := by rw [hcb]; simp
            rw [List.filter_cons_of_pos (by simpa using hf)]
            dsimp only
            rw [groupFor_insert_same]
            simp
          · have hf : (codeBase c == some b) = false := by
              rw [hcb]
              simpa using hb
            rw [List.filter_cons_of_neg (by simp [hf])]
            dsimp only
            rw [groupFor_insert_ne m b0 c b (fun hh => hb hh.symm)]

theorem codeGroups_groupFor (codes : List String) (b : String) :
    groupFor (codeGroups codes) b = codes.filter (fun c => codeBase c == some b) := by
  unfold codeGroups
  rw [codeGroups_groupFor_aux]
  rfl

theorem insertGroup_keys_mem :
    ∀ (m : List (String × List String)) (b c k : String),
      k ∈ (insertGroup m b c).map Prod.fst → k ∈ m.map Prod.fst ∨ k = b := by
  intro m b c k
  induction m with
  | nil => simp [insertGroup]
  | cons kv rest ih =>
      simp only [insertGroup]
      by_cases h : (kv.1 == b) = true
      · rw [if_pos h]
        simp only [List.map_cons, List.mem_cons]
        rintro (rfl | hk)
        · exact Or.inl (Or.inl rfl)
        · exact Or.inl (Or.inr hk)
      · rw [if_neg h]
        simp only [List.map_cons, List.mem_cons]
        rintro (rfl | hk)
        · exact Or.inl (Or.inl rfl)
        · rcases ih hk with hk | hk
          · exact Or.inl (Or.inr hk)
          · exact Or.inr hk

theorem insertGroup_keys_nodup :
    ∀ (m : List (String × List String)) (b c : String),
      (m.map Prod.fst).Nodup → ((insertGroup m b c).map Prod.fst).Nodup := by
  intro m b c
  induction m with
  | nil => intro _; simp [insertGroup]
  | cons kv rest ih =>
      intro hnd
      rw [List.map_cons, List.nodup_cons] at hnd
      simp only [insertGroup]
      by_cases h : (kv.1 == b) = true
      · rw [if_pos h, List.map_cons, List.nodup_cons]
        exact hnd
      · rw [if_neg h, List.map_cons, List.nodup_cons]
        refine ⟨?_, ih hnd.2⟩
        intro hmem
        rcases insertGroup_keys_mem rest b c kv.1 hmem with hk | hk
        · exact hnd.1 hk
        · rw [hk] at h
          simp at h

theorem codeGroups_keys_nodup (codes : List String) :
    ((codeGroups codes).map Prod.fst).Nodup := by
  unfold codeGroups
  suffices h : ∀ (cs : List String) (m : List (String × List String)),
      (m.map Prod.fst).Nodup →
      ((cs.foldl
        (fun m c =>
          match codeBase c with
          | some b0 => insertGroup m b0 c
          | none => m) m).map Prod.fst).Nodup by
    exact h codes [] (by simp)
  intro cs
  induction cs with
  | nil => intro m hm; exact hm
  | cons c cs2 ih =>
      intro m hm
      rw [List.foldl_cons]
      cases hcb : codeBase c with
      | none => exact ih m hm
      | some b0 => exact ih _ (insertGroup_keys_nodup m b0 c hm)

theorem groupFor_of_mem_nodup :
    ∀ (m : List (String × List String)) (b : String) (g : List String),
      (m.map Prod.fst).Nodup → (b, g) ∈ m → groupFor m b = g := by
  intro m b g
  induction m with
  | nil => intro _ h; simp at h
  | cons hd tl ih =>
      intro hnd hmem
      rw [List.map_cons, List.nodup_cons] at hnd
      rcases List.mem_cons.mp hmem with heq | hmem
      · rw [← heq]
        simp [groupFor]
      · have hne : ((hd.1 == b) : Bool) = false := by
          refine beq_eq_false_iff_ne.mpr ?_
          intro hh
          exact hnd.1 (hh ▸ List.mem_map.mpr ⟨(b, g), hmem, rfl⟩)
        simp [groupFor, hne, ih hnd.2 hmem]

theorem groupFor_ne_nil_mem :
    ∀ (m : List (String × List String)) (b : String),
      groupFor m b ≠ [] → (b, groupFor m b) ∈ m := by
  intro m b
  induction m with
  | nil => intro h; simp [groupFor] at h
  | cons kv rest ih =>
      intro h
      by_cases hq : (kv.1 == b) = true
      · have hkv : kv.1 = b := by simpa using hq
        have hg : groupFor (kv :: rest) b = kv.2 := by simp [groupFor, hq]
        rw [hg, ← hkv]
        exact List.mem_cons_self _ _
      · have hg : groupFor (kv :: rest) b = groupFor rest b := by simp [groupFor, hq]
        rw [hg] at h ⊢
        exact List.mem_cons_of_mem _ (ih h)

theorem mem_codeGroups_eq {codes : List String} {b : String} {g : List String}
    (h : (b, g) ∈ codeGroups codes) :
    g = codes.filter (fun c => codeBase c == some b) := by
  rw [← groupFor_of_mem_nodup _ _ _ (codeGroups_keys_nodup codes) h, codeGroups_groupFor]

theorem codeGroups_covers {codes : List String} {c b : String}
    (hc : c ∈ codes) (hb : codeBase c = some b) :
    ∃ g, (b, g) ∈ codeGroups codes ∧ c ∈ g := by
  have hmemf : c ∈ codes.filter (fun d => codeBase d == some b) :=
    List.mem_filter.mpr ⟨hc, by rw [hb]; simp⟩
  have hgf := codeGroups_groupFor codes b
  have hne : groupFor (codeGroups codes) b ≠ [] := by
    rw [hgf]
    intro hnil
    rw [hnil] at hmemf
    exact List.not_mem_nil _ hmemf
  refine ⟨groupFor (codeGroups codes) b, groupFor_ne_nil_mem _ _ hne, ?_⟩
  rw [hgf]
  exact hmemf

theorem foldl_append_eq_flatMap {α β : Type} (f : α → List β) :
    ∀ (l : List α) (acc : List β),
      l.foldl (fun a x => a ++ f x) acc = acc ++ l.flatMap f := by
  intro l
  induction l with
  | nil => intro acc; simp
  | cons x xs ih => intro acc; simp [ih]

theorem consolidate_eq_flatMap (codes : List String) :
    consolidate_product_codes codes =
      (codeGroups codes).flatMap (fun bg => consolidateGroup bg.2) := by
  unfold consolidate_product_codes
  rw [foldl_append_eq_flatMap]
  rfl

theorem consolidateGroup_mem {cs : List String} {c r : String}
    (h : (c, r) ∈ consolidateGroup cs) :
    c ∈ cs ∧ r ∈ cs ∧ ∀ d ∈ cs, moreSpecific r d := by
  unfold consolidateGroup at h
  split at h
  · next x =>
      simp only [List.mem_singleton, Prod.mk.injEq] at h
      obtain ⟨rfl, rfl⟩ := h
      refine ⟨List.mem_singleton.mpr rfl, List.mem_singleton.mpr rfl, ?_⟩
      intro d hd
      rw [List.mem_singleton.mp hd]
      exact moreSpecific_refl _
  · obtain ⟨c0, hc0, heq⟩ := List.mem_map.mp h
    obtain ⟨rfl, rfl⟩ : c0 = c ∧ (cs.insertionSort moreSpecific).headD "" = r := by
      constructor <;> [exact congrArg Prod.fst heq; exact congrArg Prod.snd heq]
    have hcsne : cs ≠ [] := fun hnil => by rw [hnil] at hc0; exact List.not_mem_nil _ hc0
    have hperm := List.perm_insertionSort moreSpecific cs
    have hsne : cs.insertionSort moreSpecific ≠ [] := by
      intro hnil
      apply hcsne
      have hlen := hperm.length_eq
      rw [hnil] at hlen
      exact List.length_eq_zero.mp hlen.symm
    cases hs : cs.insertionSort moreSpecific with
    | nil => exact absurd hs hsne
    | cons s0 stail =>
        have hsorted := List.sorted_insertionSort moreSpecific cs
        rw [hs] at hsorted hperm
        have hs0mem : s0 ∈ cs := hperm.mem_iff.mp (List.mem_cons_self _ _)
        refine ⟨hc0, by simpa [hs] using hs0mem, ?_⟩
        intro d hd
        have hdmem := hperm.mem_iff.mpr hd
        rcases List.mem_cons.mp hdmem with rfl | hdtail
        · simpa [hs] using moreSpecific_refl d
        · simpa [hs] using List.rel_of_sorted_cons hsorted d hdtail

theorem consolidateGroup_covers {cs : List String} {c : String} (h : c ∈ cs) :
    ∃ r, (c, r) ∈ consolidateGroup cs := by
  unfold consolidateGroup
  split
  · next x =>
      rw [List.mem_singleton.mp h]
      exact ⟨x, List.mem_singleton.mpr rfl⟩
  · exact ⟨_, List.mem_map.mpr ⟨c, h, rfl⟩⟩

/-- C1 (counterexample): two codes of the same group and the same length: the
code maps both to `"AB-1"`, the lexicographically EARLIER of the two, not the
later one the claim announces (`sorted(key=lambda x: (-len(x), x))[0]` breaks
ties toward the smaller string). -/
theorem consolidation_tie_earlier :
    consolidate_product_codes ["AB-1", "AB-2"] = [("AB-1", "AB-1"), ("AB-2", "AB-1")] ∧
    "AB-1".length = "AB-2".length ∧ pyLexLe "AB-1".data "AB-2".data = true ∧
    "AB-1" ≠ "AB-2" := by
  decide

/-- C1 (amended): `consolidate_product_codes` groups codes by their leading
alphanumeric run (codes with no such run are dropped from the mapping) and maps
every code of a group to the group member that is longest, with ties broken
toward the lexicographically EARLIER code; a strict prefix of a longer observed
group member is therefore never chosen.  The set
`{"UNIO22", "UNIO22-4", "UNIO22-10"}` maps all three codes to `"UNIO22-10"`. -/
theorem consolidation_most_specific :
    (∀ (codes : List String) (c r : String), (c, r) ∈ consolidate_product_codes codes →
      r ∈ codes ∧ codeBase r = codeBase c ∧
      ∀ d ∈ codes, codeBase d = codeBase c → moreSpecific r d) ∧
    (∀ (codes : List String) (c : String), c ∈ codes → (codeBase c).isSome = true →
      ∃ r, (c, r) ∈ consolidate_product_codes codes) ∧
    consolidate_product_codes ["UNIO22", "UNIO22-4", "UNIO22-10"] =
      [("UNIO22", "UNIO22-10"), ("UNIO22-4", "UNIO22-10"), ("UNIO22-10", "UNIO22-10")] := by
  refine ⟨?_, ?_, by decide⟩
  · intro codes c r hmem
    rw [consolidate_eq_flatMap] at hmem
    obtain ⟨bg, hbg, hpair⟩ := List.mem_flatMap.mp hmem
    obtain ⟨b, g⟩ := bg
    have hg := mem_codeGroups_eq hbg
    obtain ⟨hcg, hrg, hspec⟩ := consolidateGroup_mem hpair
    rw [hg] at hcg hrg
    have hcb : codeBase c = some b := by
      have := (List.mem_filter.mp hcg).2
      simpa using this
    have hrb : codeBase r = some b := by
      have := (List.mem_filter.mp hrg).2
      simpa using this
    refine ⟨(List.mem_filter.mp hrg).1, by rw [hrb, hcb], ?_⟩
    intro d hd hdb
    have hdg : d ∈ g := by
      rw [hg]
      exact List.mem_filter.mpr ⟨hd, by rw [hdb, hcb]; simp⟩
    exact hspec d hdg
  · intro codes c hc hb
    obtain ⟨b, hbeq⟩ := Option.isSome_iff_exists.mp hb
    obtain ⟨g, hg, hcg⟩ := codeGroups_covers hc hbeq
    obtain ⟨r, hr⟩ := consolidateGroup_covers hcg
    refine ⟨r, ?_⟩
    rw [consolidate_eq_flatMap]
    exact List.mem_flatMap.mpr ⟨(b, g), hg, hr⟩

/-- C1 witness: in the concrete set of the claim, `"UNIO22"` maps to
`"UNIO22-10"`, which belongs to the set, shares the leading run, and is at
least as specific as every member of its group. -/
theorem consolidation_most_specific_witness :
    "UNIO22-10" ∈ ["UNIO22", "UNIO22-4", "UNIO22-10"] ∧
    codeBase "UNIO22-10" = codeBase "UNIO22" ∧
    ∀ d ∈ ["UNIO22", "UNIO22-4", "UNIO22-10"],
      codeBase d = codeBase "UNIO22" → moreSpecific "UNIO22-10" d :=
  consolidation_most_specific.1 ["UNIO22", "UNIO22-4", "UNIO22-10"] "UNIO22" "UNIO22-10"
    (by decide)

theorem lowerChar_eq_dot {c : Char} (h : lowerChar c = '.') : c = '.' := by
  unfold lowerChar at h
  split at h <;> first
    | exact absurd h (by decide)
    | exact h

theorem mem_dropWhile_of_not {c : Char} {p : Char → Bool} :
    ∀ {l : List Char}, c ∈ l → p c = false → c ∈ l.dropWhile p := by
  intro l
  induction l with
  | nil => intro h _; simp at h
  | cons a t ih =>
      intro hm hp
      by_cases ha : p a = true
      · rw [List.dropWhile_cons_of_pos ha]
        rcases List.mem_cons.mp hm with rfl | hm
        · rw [ha] at hp; exact absurd hp (by decide)
        · exact ih hm hp
      · rw [List.dropWhile_cons_of_neg ha]
        exact hm

theorem mem_of_mem_dropWhile {c : Char} {p : Char → Bool} {l : List Char}
    (h : c ∈ l.dropWhile p) : c ∈ l :=
  (List.dropWhile_sublist p).mem h

theorem mem_pyStrip_of_not_space {c : Char} {l : List Char}
    (hm : c ∈ l) (hs : isPySpace c = false) : c ∈ pyStrip l := by
  unfold pyStrip
  rw [List.mem_reverse]
  exact mem_dropWhile_of_not (List.mem_reverse.mpr (mem_dropWhile_of_not hm hs)) hs

theorem mem_of_mem_pyStrip {c : Char} {l : List Char} (h : c ∈ pyStrip l) : c ∈ l := by
  unfold pyStrip at h
  exact mem_of_mem_dropWhile (List.mem_reverse.mp (mem_of_mem_dropWhile (List.mem_reverse.mp h)))

theorem stripVersion_snd_chars {l : List Char} {c : Char}
    (h : c ∈ (stripVersionL l).2) : c = '_' ∨ c = 'v' ∨ c.isDigit = true := by
  unfold stripVersionL at h
  dsimp only at h
  split at h
  · simp at h
  · split at h
    · rcases List.mem_cons.mp h with rfl | h
      · exact Or.inl rfl
      · rcases List.mem_cons.mp h with rfl | h
        · exact Or.inr (Or.inl rfl)
        · exact Or.inr (Or.inr (List.mem_takeWhile_imp (List.mem_reverse.mp h)))
    · simp at h

theorem mem_of_mem_stripVersion_fst {l : List Char} {c : Char}
    (h : c ∈ (stripVersionL l).1) : c ∈ l := by
  rw [← stripVersionL_append l]
  exact List.mem_append_left _ h

theorem mem_of_mem_splitext_fst {l : List Char} {c : Char}
    (h : c ∈ (splitextL l).1) : c ∈ l := by
  rw [← splitextL_append l]
  exact List.mem_append_left _ h

theorem mem_of_mem_splitext_snd {l : List Char} {c : Char}
    (h : c ∈ (splitextL l).2) : c ∈ l := by
  rw [← splitextL_append l]
  exact List.mem_append_right _ h

theorem dot_mem_normalize_of_mem {f : String} (h : '.' ∈ f.data) :
    '.' ∈ (normalize_filename f).data := by
  unfold normalize_filename
  dsimp only
  show '.' ∈ _ ++ _
  rw [← splitextL_append f.data] at h
  rcases List.mem_append.mp h with hm | hm
  · refine List.mem_append_left _ ?_
    rw [← stripVersionL_append (splitextL f.data).1] at hm
    rcases List.mem_append.mp hm with hm | hm
    · refine List.mem_map.mpr ⟨'.', ?_, rfl⟩
      refine mem_pyStrip_of_not_space ?_ (by decide)
      exact List.mem_filter.mpr ⟨hm, by decide⟩
    · rcases stripVersion_snd_chars hm with hc | hc | hc <;> simp at hc
  · exact List.mem_append_right _ (List.mem_map.mpr ⟨'.', hm, rfl⟩)

theorem dot_not_mem_normalize {f : String} (h : '.' ∉ f.data) :
    '.' ∉ (normalize_filename f).data := by
  intro hmem
  unfold normalize_filename at hmem
  dsimp only at hmem
  apply h
  rcases List.mem_append.mp hmem with hm | hm
  · obtain ⟨c, hc, hlc⟩ := List.mem_map.mp hm
    rw [lowerChar_eq_dot hlc] at hc
    exact mem_of_mem_splitext_fst
      (mem_of_mem_stripVersion_fst (List.mem_filter.mp (mem_of_mem_pyStrip hc)).1)
  · obtain ⟨c, hc, hlc⟩ := List.mem_map.mp hm
    rw [lowerChar_eq_dot hlc] at hc
    exact mem_of_mem_splitext_snd hc

theorem natDigitChar_ne_dot (n : Nat) : natDigitChar n ≠ '.' := by
  unfold natDigitChar
  split <;> decide

theorem natToCharsAux_no_dot : ∀ (fuel n : Nat), '.' ∉ natToCharsAux fuel n := by
  intro fuel
  induction fuel with
  | zero => intro n h; simp [natToCharsAux] at h
  | succ f ih =>
      intro n h
      unfold natToCharsAux at h
      split at h
      · exact natDigitChar_ne_dot n (List.mem_singleton.mp h).symm
      · rcases List.mem_append.mp h with h | h
        · exact ih _ h
        · exact natDigitChar_ne_dot _ (List.mem_singleton.mp h).symm

theorem dot_mem_convert_of_mem {f : String} (h : '.' ∈ f.data) :
    '.' ∈ (convert_alpha_to_numeric_suffix f).data := by
  unfold convert_alpha_to_numeric_suffix
  dsimp only
  rw [← splitextL_append f.data] at h
  split
  · next c heq =>
      split
      · next hca =>
          show '.' ∈ _ ++ _ ++ _ ++ _
          rcases List.mem_append.mp h with hm | hm
          · rw [← stripVersionL_append (splitextL f.data).1] at hm
            rcases List.mem_append.mp hm with hm | hm
            · have hne2 : (stripVersionL (splitextL f.data).1).1 ≠ [] := by
                intro hnil
                rw [hnil] at heq
                simp at heq
              have hc_last : c = (stripVersionL (splitextL f.data).1).1.getLast hne2 := by
                have h2 := List.getLast?_eq_getLast (stripVersionL (splitextL f.data).1).1 hne2
                rw [heq] at h2
                exact Option.some.inj h2
              have hfull : (stripVersionL (splitextL f.data).1).1.dropLast ++ [c] =
                  (stripVersionL (splitextL f.data).1).1 := by
                rw [hc_last]
                exact List.dropLast_append_getLast hne2
              rw [← hfull] at hm
              rcases List.mem_append.mp hm with hm | hm
              · exact List.mem_append_left _ (List.mem_append_left _
                  (List.mem_append_left _ hm))
              · exfalso
                have : c = '.' := (List.mem_singleton.mp hm).symm
                rw [this] at hca
                exact absurd hca (by decide)
            · exfalso
              rcases stripVersion_snd_chars hm with hc | hc | hc <;> simp at hc
          · exact List.mem_append_right _ hm
      · show '.' ∈ _ ++ _ ++ _
        rw [← stripVersionL_append (splitextL f.data).1] at h
        exact h
  · show '.' ∈ _ ++ _ ++ _
    rw [← stripVersionL_append (splitextL f.data).1] at h
    exact h

theorem dot_not_mem_convert {f : String} (h : '.' ∉ f.data) :
    '.' ∉ (convert_alpha_to_numeric_suffix f).data := by
  intro hmem
  unfold convert_alpha_to_numeric_suffix at hmem
  dsimp only at hmem
  apply h
  split at hmem
  · split at hmem
    · rcases List.mem_append.mp hmem with hm | hm
      · rcases List.mem_append.mp hm with hm | hm
        · rcases List.mem_append.mp hm with hm | hm
          · exact mem_of_mem_splitext_fst (mem_of_mem_stripVersion_fst
              (List.dropLast_sublist _ |>.mem hm))
          · exact absurd hm (natToCharsAux_no_dot _ _)
        · rw [← splitextL_append f.data]
          refine List.mem_append_left _ ?_
          rw [← stripVersionL_append (splitextL f.data).1]
          exact List.mem_append_right _ hm
      · exact mem_of_mem_splitext_snd hm
    · rcases List.mem_append.mp hmem with hm | hm
      · rcases List.mem_append.mp hm with hm | hm
        · exact mem_of_mem_splitext_fst (mem_of_mem_stripVersion_fst hm)
        · rw [← splitextL_append f.data]
          refine List.mem_append_left _ ?_
          rw [← stripVersionL_append (splitextL f.data).1]
          exact List.mem_append_right _ hm
      · exact mem_of_mem_splitext_snd hm
  · rcases List.mem_append.mp hmem with hm | hm
    · rcases List.mem_append.mp hm with hm | hm
      · exact mem_of_mem_splitext_fst (mem_of_mem_stripVersion_fst hm)
      · rw [← splitextL_append f.data]
        refine List.mem_append_left _ ?_
        rw [← stripVersionL_append (splitextL f.data).1]
        exact List.mem_append_right _ hm
    · exact mem_of_mem_splitext_snd hm

theorem variant_match_dotless {e f : String} (he : '.' ∉ e.data) (hf : '.' ∈ f.data) :
    file_variant_match e f = false := by
  unfold file_variant_match
  dsimp only
  have h1 : '.' ∈ (normalize_filename f).data := dot_mem_normalize_of_mem hf
  have h2 : '.' ∈ (normalize_filename_with_alpha_numeric f).data := by
    unfold normalize_filename_with_alpha_numeric
    exact dot_mem_normalize_of_mem (dot_mem_convert_of_mem hf)
  have h3 : '.' ∉ (normalize_filename e).data := dot_not_mem_normalize he
  have h4 : '.' ∉ (normalize_filename_with_alpha_numeric e).data := by
    unfold normalize_filename_with_alpha_numeric
    exact dot_not_mem_normalize (dot_not_mem_convert he)
  have ne1 : normalize_filename f ≠ normalize_filename e := fun hh => h3 (hh ▸ h1)
  have ne2 : normalize_filename_with_alpha_numeric f ≠
      normalize_filename_with_alpha_numeric e := fun hh => h4 (hh ▸ h2)
  have ne3 : normalize_filename f ≠ normalize_filename_with_alpha_numeric e :=
    fun hh => h4 (hh ▸ h1)
  have ne4 : normalize_filename_with_alpha_numeric f ≠ normalize_filename e :=
    fun hh => h3 (hh ▸ h2)
  simp [beq_eq_false_iff_ne.mpr ne1, beq_eq_false_iff_ne.mpr ne2,
    beq_eq_false_iff_ne.mpr ne3, beq_eq_false_iff_ne.mpr ne4]

theorem mem_map_ite_entry (x repl : FsEntry) {l : List FsEntry} {en : FsEntry}
    (h : en ∈ l) (hne : en ≠ x) :
    en ∈ l.map (fun e => if e == x then repl else e) := by
  refine List.mem_map.mpr ⟨en, h, ?_⟩
  show (if en == x then repl else en) = en
  rw [if_neg (by simpa using hne)]

theorem mem_map_ite_cond (destDir oldDir : List String) (ts : String)
    {l : List FsEntry} {en : FsEntry} {incoming : String}
    (h : en ∈ l) (hne : en.name ≠ incoming) :
    en ∈ l.map (fun e =>
      if e.dir == destDir && e.name == incoming then
        ({ dir := oldDir, name := handle_existing_file e.name ts } : FsEntry)
      else e) := by
  refine List.mem_map.mpr ⟨en, h, ?_⟩
  show (if en.dir == destDir && en.name == incoming then
    ({ dir := oldDir, name := handle_existing_file en.name ts } : FsEntry) else en) = en
  rw [if_neg]
  simp only [Bool.and_eq_true, beq_iff_eq]
  rintro ⟨-, hh⟩
  exact hne hh

theorem organize_step_preserves (ctx : MoveContext) (incoming : String)
    (st : List FsEntry) (en : FsEntry) (hin : '.' ∈ incoming.data)
    (hen : '.' ∉ en.name.data) (hmem : en ∈ st) :
    en ∈ organize_step ctx incoming st := by
  unfold organize_step
  cases hfind : st.find? (fun x => x.name == incoming) with
  | none => exact hmem
  | some src =>
      have hsrc_name : src.name = incoming := by
        have := List.find?_some hfind
        simpa using this
      have hname_ne : en.name ≠ incoming := fun hh => hen (hh ▸ hin)
      have hen_ne_src : en ≠ src := fun hh => hname_ne (hh ▸ hsrc_name)
      dsimp only
      cases hfound : (st.filter (fun x => x.dir == ctx.destDir)).find?
          (fun x => file_variant_match x.name incoming) with
      | some existing =>
          dsimp only
          have hex_match : file_variant_match existing.name incoming = true := by
            have := List.find?_some hfound
            simpa using this
          have hex_dot : '.' ∈ existing.name.data := by
            by_contra hnd
            rw [variant_match_dotless hnd hin] at hex_match
            exact absurd hex_match (by decide)
          have hen_ne_ex : en ≠ existing := fun hh => hen (hh ▸ hex_dot)
          have hst1 := mem_map_ite_entry existing
            { dir := ctx.oldImagesDir,
              name := handle_existing_file existing.name ctx.timestamp }
            hmem hen_ne_ex
          by_cases hmv : (!(src.dir == ctx.destDir && src.name == incoming)) = true
          · rw [if_pos hmv]
            exact mem_map_ite_entry src { dir := ctx.destDir, name := incoming }
              hst1 hen_ne_src
          · rw [if_neg hmv]
            exact hst1
      | none =>
          dsimp only
          by_cases hany : (st.any fun x => x.dir == ctx.destDir && x.name == incoming) = true
          · rw [if_pos hany]
            have hst1 := mem_map_ite_cond ctx.destDir ctx.oldImagesDir ctx.timestamp
              hmem hname_ne
            by_cases hmv : (!(src.dir == ctx.destDir && src.name == incoming)) = true
            · rw [if_pos hmv]
              exact mem_map_ite_entry src { dir := ctx.destDir, name := incoming }
                hst1 hen_ne_src
            · rw [if_neg hmv]
              exact hst1
          · rw [if_neg hany]
            by_cases hmv : (!(src.dir == ctx.destDir && src.name == incoming)) = true
            · rw [if_pos hmv]
              exact mem_map_ite_entry src { dir := ctx.destDir, name := incoming }
                hmem hen_ne_src
            · rw [if_neg hmv]
              exact hmem

theorem organize_run_preserves :
    ∀ (jobs : List (MoveContext × String)) (st : List FsEntry) (en : FsEntry),
      (∀ j ∈ jobs, '.' ∈ (j.2 : String).data) → '.' ∉ en.name.data → en ∈ st →
      en ∈ organize_run jobs st := by
  intro jobs
  induction jobs with
  | nil => intro st en _ _ hmem; exact hmem
  | cons j js ih =>
      intro st en hjobs hen hmem
      unfold organize_run
      rw [List.foldl_cons]
      exact ih _ en (fun x hx => hjobs x (List.mem_cons_of_mem _ hx)) hen
        (organize_step_preserves j.1 j.2 st en (hjobs j (List.mem_cons_self _ _)) hen hmem)

theorem processedNames_dot {files : List String} {n : String}
    (h : n ∈ processedNames files) : '.' ∈ n.data := by
  unfold processedNames at h
  have hp := (List.mem_filter.mp h).2
  rw [Bool.and_eq_true] at hp
  simpa using hp.1

/-- C10 (counterexample): the file `".foo"` contains a dot, is collected by the
brand-grouping pass (its whole stem becomes the brand), yet its normalized key
`".foo"` carries an EMPTY extension — refuting the claim's justification that
every processed incoming file carries a non-empty one. -/
theorem processed_file_empty_extension :
    ".foo" ∈ processedNames [".foo"] ∧
    (splitextL (normalize_filename ".foo").data).2 = [] := by
  decide

/-- C10 (amended): an organizing run never moves, renames, or quarantines a file
whose name contains no dot: such names are skipped by the brand-grouping pass;
a dotless file is never matched as an existing variant, because both normalized
keys of a dotless name contain no dot while both keys of any processed (dotted)
incoming name contain one; and the moving phase leaves every dotless entry at
its original path. -/
theorem dotless_files_untouched :
    (∀ (files : List String) (n : String), n ∈ processedNames files → '.' ∈ n.data) ∧
    (∀ e f : String, '.' ∉ e.data → '.' ∈ f.data → file_variant_match e f = false) ∧
    (∀ (jobs : List (MoveContext × String)) (st : List FsEntry) (en : FsEntry),
      (∀ j ∈ jobs, '.' ∈ (j.2 : String).data) → '.' ∉ en.name.data → en ∈ st →
      en ∈ organize_run jobs st) :=
  ⟨fun _ _ h => processedNames_dot h,
   fun _ _ he hf => variant_match_dotless he hf,
   organize_run_preserves⟩

/-- C10 witness: a dotless `README` sits next to `a.jpg`; after the run that
moves `a.jpg` into its brand folder, `README` is still at the root under its
own name. -/
theorem dotless_files_untouched_witness :
    (⟨[], "README"⟩ : FsEntry) ∈ organize_run
      [(⟨["Brand"], ["Brand", "Old Images"], "20240101_000000"⟩, "a.jpg")]
      [⟨[], "README"⟩, ⟨[], "a.jpg"⟩] :=
  dotless_files_untouched.2.2
    [(⟨["Brand"], ["Brand", "Old Images"], "20240101_000000"⟩, "a.jpg")]
    [⟨[], "README"⟩, ⟨[], "a.jpg"⟩] ⟨[], "README"⟩
    (by decide) (by decide) (by decide)

theorem isAlphanum_of_isAlpha {c : Char} (h : c.isAlpha = true) : c.isAlphanum = true := by
  unfold Char.isAlphanum
  rw [h]
  rfl

theorem isSepChar_false_of_alnum {c : Char} (h : c.isAlphanum = true) :
    isSepChar c = false := by
  unfold isSepChar isPySpace
  have h1 : c ≠ '-' := fun hh => by subst hh; exact absurd h (by decide)
  have h2 : c ≠ '_' := fun hh => by subst hh; exact absurd h (by decide)
  have h3 : c ≠ ' ' := fun hh => by subst hh; exact absurd h (by decide)
  have h4 : c ≠ '\t' := fun hh => by subst hh; exact absurd h (by decide)
  have h5 : c ≠ '\n' := fun hh => by subst hh; exact absurd h (by decide)
  have h6 : c ≠ '\x0b' := fun hh => by subst hh; exact absurd h (by decide)
  have h7 : c ≠ '\x0c' := fun hh => by subst hh; exact absurd h (by decide)
  have h8 : c ≠ '\r' := fun hh => by subst hh; exact absurd h (by decide)
  simp [h1, h2, h3, h4, h5, h6, h7, h8]

theorem isPySpace_false_of_alnum {c : Char} (h : c.isAlphanum = true) :
    isPySpace c = false := by
  have hs := isSepChar_false_of_alnum h
  unfold isSepChar at hs
  simp only [Bool.or_eq_false_iff] at hs
  exact hs.2

theorem cleanKeep_of_alnum {c : Char} (h : c.isAlphanum = true) : cleanKeep c = true := by
  unfold cleanKeep isWordChar
  rw [h]
  rfl

theorem ne_dot_of_alnum {c : Char} (h : c.isAlphanum = true) : c ≠ '.' := by
  intro hh
  subst hh
  exact absurd h (by decide)

theorem ne_underscore_of_alnum {c : Char} (h : c.isAlphanum = true) : c ≠ '_' := by
  intro hh
  subst hh
  exact absurd h (by decide)

theorem stripVersion_no_underscore {l : List Char} (h : '_' ∉ l) :
    stripVersionL l = (l, []) := by
  unfold stripVersionL
  dsimp only
  split
  · rfl
  · split
    · next rest heq =>
        exfalso
        apply h
        rw [← List.mem_reverse]
        have hmm : '_' ∈ l.reverse.drop (l.reverse.takeWhile Char.isDigit).length := by
          rw [heq]
          exact List.mem_cons_of_mem _ (List.mem_cons_self _ _)
        exact (List.drop_sublist _ _).mem hmm
    · rfl

theorem dropWhile_eq_self_of_false {p : Char → Bool} {l : List Char}
    (h : ∀ c ∈ l, p c = false) : l.dropWhile p = l := by
  cases l with
  | nil => rfl
  | cons a t =>
      rw [List.dropWhile_cons_of_neg]
      rw [h a (List.mem_cons_self _ _)]
      exact Bool.false_ne_true

theorem pyStrip_eq_self {l : List Char} (h : ∀ c ∈ l, isPySpace c = false) :
    pyStrip l = l := by
  unfold pyStrip
  rw [dropWhile_eq_self_of_false h,
    dropWhile_eq_self_of_false (fun c hc => h c (List.mem_reverse.mp hc)),
    List.reverse_reverse]

theorem takeWhile_eq_self_of_true {p : Char → Bool} {l : List Char}
    (h : ∀ c ∈ l, p c = true) : l.takeWhile p = l := by
  induction l with
  | nil => rfl
  | cons a t ih =>
      rw [List.takeWhile_cons_of_pos (h a (List.mem_cons_self _ _))]
      rw [ih (fun c hc => h c (List.mem_cons_of_mem _ hc))]

theorem splitSeps_no_sep {l : List Char} (h : ∀ c ∈ l, isSepChar c = false) :
    splitSeps l = [l] := by
  induction l with
  | nil => rfl
  | cons c rest ih =>
      show (if isSepChar c then [] :: splitSeps rest
        else
          match splitSeps rest with
          | a :: r2 => (c :: a) :: r2
          | [] => [[c]]) = [c :: rest]
      rw [h c (List.mem_cons_self _ _)]
      rw [ih (fun x hx => h x (List.mem_cons_of_mem _ hx))]
      rfl

theorem splitSeps_two {a b : List Char} (s : Char)
    (ha : ∀ c ∈ a, isSepChar c = false) (hb : ∀ c ∈ b, isSepChar c = false)
    (hs : isSepChar s = true) :
    splitSeps (a ++ s :: b) = [a, b] := by
  induction a with
  | nil =>
      show (if isSepChar s then [] :: splitSeps b
        else
          match splitSeps b with
          | x :: r2 => (s :: x) :: r2
          | [] => [[s]]) = [[], b]
      rw [hs, splitSeps_no_sep hb]
      rfl
  | cons x a2 ih =>
      show (if isSepChar x then [] :: splitSeps (a2 ++ s :: b)
        else
          match splitSeps (a2 ++ s :: b) with
          | y :: r2 => (x :: y) :: r2
          | [] => [[x]]) = [x :: a2, b]
      rw [ha x (List.mem_cons_self _ _)]
      rw [ih (fun c hc => ha c (List.mem_cons_of_mem _ hc))]
      rfl

theorem hasDottedVersion_dot_mem {s : String} (h : hasDottedVersion s = true) :
    '.' ∈ s.data := by
  unfold hasDottedVersion at h
  obtain ⟨t, ht, hstart⟩ := List.any_eq_true.mp h
  unfold startsDottedVersion at hstart
  rw [Bool.and_eq_true] at hstart
  have hdot : '.' ∈ t := by
    rcases hstart with ⟨-, hm⟩
    revert hm
    split
    · next heq =>
        intro _
        have hmm : '.' ∈ t.drop (t.takeWhile Char.isDigit).length := by
          rw [heq]
          exact List.mem_cons_self _ _
        exact (List.drop_sublist _ _).mem hmm
    · intro hfalse
      exact absurd hfalse (by decide)
  have hsub : t <:+ s.data := by
    rw [← List.mem_tails]
    exact ht
  exact hsub.sublist.mem hdot

theorem brandModelSplit_none_of_alpha {s : String} (h1 : s.data ≠ [])
    (h2 : ∀ c ∈ s.data, c.isAlpha = true) : brandModelSplit s = none := by
  unfold brandModelSplit
  rw [takeWhile_eq_self_of_true h2]
  have hie : s.data.isEmpty = false := by
    cases hd : s.data with
    | nil => exact absurd hd h1
    | cons a t => rfl
  have hne : ¬(s.data.isEmpty = true) := by
    rw [hie]
    exact Bool.false_ne_true
  rw [if_neg hne, List.drop_length]

theorem is_variant_code_false_of_long {s : String} (h : 2 ≤ s.data.length) :
    is_variant_code s = false := by
  unfold is_variant_code
  split
  · next c heq =>
      rw [heq] at h
      simp at h
  · rfl

/-- C3 (counterexample): the stem `"Widget-2"` is `<brand>-<code>` with a purely
alphabetic brand and a code (`"2"`) containing a digit, but the extractor pops
the single-character code as a VARIANT and returns no product code at all. -/
theorem extract_brand_code_counterexample :
    "Widget-2" = "Widget" ++ "-" ++ "2" ∧
    "Widget".data.all Char.isAlpha = true ∧ "2".data.any Char.isDigit = true ∧
    extract_name_code_variant "Widget-2" = (some "Widget", none, some "2") := by
  decide

/-- C3 (amended): for every stem `<brand>-<code>` in which the brand is purely
alphabetic and nonempty and the code is alphanumeric, contains a digit, and has
at least two characters (so it is neither popped as a variant nor split by the
separator tokenizer), the extractor recovers exactly that brand and that code,
with no variant. -/
theorem extract_brand_code (brand code : String)
    (hb1 : brand.data ≠ []) (hb2 : ∀ c ∈ brand.data, c.isAlpha = true)
    (hk1 : 2 ≤ code.data.length) (hk2 : ∀ c ∈ code.data, c.isAlphanum = true)
    (hk3 : ∃ c ∈ code.data, c.isDigit = true) :
    extract_name_code_variant (brand ++ "-" ++ code) = (some brand, some code, none) := by
  have hkne : code.data ≠ [] := by
    intro hnil
    rw [hnil] at hk1
    simp at hk1
  have hbal : ∀ c ∈ brand.data, c.isAlphanum = true :=
    fun c hc => isAlphanum_of_isAlpha (hb2 c hc)
  have hbe : brand.data.isEmpty = false := by
    cases hbd : brand.data with
    | nil => exact absurd hbd hb1
    | cons a t => rfl
  have hke : code.data.isEmpty = false := by
    cases hkd : code.data with
    | nil => exact absurd hkd hkne
    | cons a t => rfl
  have hdata : (brand ++ "-" ++ code).data = brand.data ++ '-' :: code.data := by
    simp
  have hund : '_' ∉ (brand ++ "-" ++ code).data := by
    rw [hdata]
    intro hm
    rcases List.mem_append.mp hm with hm | hm
    · exact ne_underscore_of_alnum (hbal _ hm) rfl
    · rcases List.mem_cons.mp hm with heq | hm
      · exact absurd heq.symm (by decide)
      · exact ne_underscore_of_alnum (hk2 _ hm) rfl
  have hstrip : stripVersionL (brand ++ "-" ++ code).data = ((brand ++ "-" ++ code).data, []) :=
    stripVersion_no_underscore hund
  have hclean : ((brand ++ "-" ++ code).data).filter cleanKeep = (brand ++ "-" ++ code).data := by
    rw [List.filter_eq_self]
    intro c hc
    rw [hdata] at hc
    rcases List.mem_append.mp hc with hm | hm
    · exact cleanKeep_of_alnum (hbal _ hm)
    · rcases List.mem_cons.mp hm with heq | hm
      · rw [heq]
        rfl
      · exact cleanKeep_of_alnum (hk2 _ hm)
  have hparts : extractParts (brand ++ "-" ++ code) = [brand, code] := by
    unfold extractParts
    rw [hstrip]
    dsimp only
    rw [hclean, hdata]
    unfold splitParts
    rw [splitSeps_two '-' (fun c hc => isSepChar_false_of_alnum (hbal c hc))
      (fun c hc => isSepChar_false_of_alnum (hk2 c hc)) (by decide)]
    simp [List.filter_cons, hbe, hke, String.mk_data]
  have hvc : is_variant_code code = false := is_variant_code_false_of_long hk1
  have hbm : brandModelSplit brand = none := brandModelSplit_none_of_alpha hb1 hb2
  have hdb : hasDottedVersion brand = false := by
    cases hx : hasDottedVersion brand with
    | false => rfl
    | true => exact absurd rfl (ne_dot_of_alnum (hbal _ (hasDottedVersion_dot_mem hx)))
  have hdc : hasDottedVersion code = false := by
    cases hx : hasDottedVersion code with
    | false => rfl
    | true => exact absurd rfl (ne_dot_of_alnum (hk2 _ (hasDottedVersion_dot_mem hx)))
  have haa : allAlphaStr brand = true := by
    unfold allAlphaStr
    rw [hbe]
    simp [List.all_eq_true]
    exact hb2
  have hdg : hasDigitStr code = true := by
    unfold hasDigitStr
    rw [List.any_eq_true]
    exact hk3
  have hstr : pyStrip brand.data = brand.data :=
    pyStrip_eq_self (fun c hc => isPySpace_false_of_alnum (hbal c hc))
  unfold extract_name_code_variant
  dsimp only
  rw [hparts, hstrip]
  dsimp only
  rw [if_neg Bool.false_ne_true]
  unfold extractMain popVariant finalizeNameCode pyTruthy
  simp only [show ([brand, code].getLastD "") = code from rfl, hvc, Bool.and_false,
    Bool.false_eq_true, if_false, List.findIdx?_cons, hdb, hdc, List.findIdx?_nil,
    Option.map_none', hbm, haa, hdg, Bool.and_self, if_true, List.isEmpty_cons,
    Bool.not_false, show joinWith " " [brand] = brand from rfl, String.mk_data, hstr,
    hbe, hke, Bool.not_true, Bool.false_and]

/-- C3 witness: `"Widget-A100"` satisfies all side conditions and yields brand
`"Widget"`, code `"A100"`, no variant. -/
theorem extract_brand_code_witness :
    extract_name_code_variant ("Widget" ++ "-" ++ "A100") =
      (some "Widget", some "A100", none) :=
  extract_brand_code "Widget" "A100" (by decide) (by decide) (by decide) (by decide)
    (by decide)

/-- C9: `extract_name_code_variant "Uniserve-UNIO22-4"` returns brand
`"Uniserve"`, product code `"UNIO22-4"`, and no variant: the three tokens hit
the special three-token rule (alphabetic brand, alphanumeric code with digits,
pure-digit tail), which joins the last two tokens with a hyphen. -/
theorem extract_uniserve_unio22_4 :
    extract_name_code_variant "Uniserve-UNIO22-4" = (some "Uniserve", some "UNIO22-4", none) := by
  decide

/-- C4 (counterexample): the stem `"-"` is non-empty, yet the extractor returns
neither a brand name nor a product code — tokenization leaves no parts, and the
function returns `(None, None, None)`. -/
theorem extract_dash_all_none :
    extract_name_code_variant "-" = (none, none, none) ∧ "-" ≠ "" := by
  decide

/-- C4 (amended): whenever the stem still has at least one token after cleaning
and separator-splitting, at least one of brand name and product code is
non-null; and a returned variant is always exactly one alphanumeric character. -/
theorem extract_identity_invariant (s : String) :
    (extractParts s ≠ [] →
      (extract_name_code_variant s).1 ≠ none ∨ (extract_name_code_variant s).2.1 ≠ none) ∧
    (∀ v, (extract_name_code_variant s).2.2 = some v →
      v.data.length = 1 ∧ v.data.all Char.isAlphanum = true) := by
  constructor
  · intro hne
    unfold extract_name_code_variant
    cases hp : extractParts s with
    | nil => exact absurd hp hne
    | cons p0 rest =>
        simp only
        split
        · left; simp
        · obtain ⟨nc, hmain, name, code, hnc⟩ := extractMain_parts_result
            (String.mk (stripVersionL s.data).1) (p0 :: rest)
          rw [hmain]
          have hne2 : (popVariant (p0 :: rest)).2 ≠ [] :=
            popVariant_snd_ne_nil (by simp)
          have := finalizeNameCode_not_none hne2 name code
          rw [← hnc] at this
          exact this
  · intro v hv
    unfold extract_name_code_variant at hv
    cases hp : extractParts s with
    | nil => rw [hp] at hv; simp at hv
    | cons p0 rest =>
        rw [hp] at hv
        simp only at hv
        split at hv
        · simp at hv
        · obtain ⟨nc, hmain, name, code, hnc⟩ := extractMain_parts_result
            (String.mk (stripVersionL s.data).1) (p0 :: rest)
          rw [hmain] at hv
          simp only at hv
          exact is_variant_code_shape (popVariant_fst_variant hv)

/-- C4 witness: the stem `"Widget-2"` tokenizes to two parts, so the theorem
applies; its brand is non-null and its variant `"2"` is one alphanumeric
character. -/
theorem extract_identity_invariant_witness :
    extractParts "Widget-2" ≠ [] ∧
    ((extract_name_code_variant "Widget-2").1 ≠ none ∨
      (extract_name_code_variant "Widget-2").2.1 ≠ none) ∧
    ("2".data.length = 1 ∧ "2".data.all Char.isAlphanum = true) :=
  ⟨by decide,
   (extract_identity_invariant "Widget-2").1 (by decide),
   (extract_identity_invariant "Widget-2").2 "2" (by decide)⟩

end OrgApp
